import Mathlib

/-!
Verification development for the layout-composition and circuit-stitching core
of the rivet transpiler library.

The embedding below mirrors the source functions `get_full_map`,
`transpile_right`, `transpile_left`, `transpile_chain`
(rivet_transpiler/transpiler.py) and `invert_map`,
`split_parametrized_circuit` (qml_transpiler/transpile_part.py).

Conventions of the embedding:
* Circuits are `Fragment` values: an operation list over virtual qubit
  indices `0..numQubits`, plus an optional `TLayout`.
* A qiskit `TranspileLayout` is modelled by `TLayout`:
  `inputQubitMapping` lists the input-circuit qubits in dictionary insertion
  order (each qubit represented by a natural-number id);
  `initialPhysToVirt` is `initial_layout.get_physical_bits()` as a list
  (entry `p` is the input virtual qubit placed at physical qubit `p`);
  `finalRouting` is `final_layout` as a position-to-position list, `none`
  when the circuit has no final layout.
* The external device compiler (`qiskit.transpile` behind the library's
  `transpile` wrapper) is an explicit oracle parameter of type `Compiler`;
  it receives the circuit and the `initial_layout` hint exactly as the
  source passes them.
* Python code that can raise is modelled with `Option`/`Except`: a `none`
  or `.error` result corresponds to an exception propagating out of the
  corresponding Python call.
-/

/-- Kinds of errors surfaced by the stitching engine and the external
compiler, as named by the specification. -/
inductive TranspileError where
  | dimensionMismatch
  | nonInvertibleOperation
  | layoutError
  | compilationError
  | emptyChain
deriving DecidableEq

/-- One circuit operation: an id, the virtual qubits it acts on, whether an
inverse is defined for it, whether it is parameterized, and whether it is
the inverted (dagger) form. -/
structure Op where
  gid : Nat
  qubits : List Nat
  invertible : Bool
  parameterized : Bool
  dagger : Bool
deriving DecidableEq

/-- Model of qiskit's `TranspileLayout` as stored on a transpiled circuit. -/
structure TLayout where
  inputQubitMapping : List Nat
  initialPhysToVirt : List Nat
  finalRouting : Option (List Nat)
deriving DecidableEq

/-- A circuit fragment: qubit count, operation sequence, optional layout. -/
structure Fragment where
  numQubits : Nat
  ops : List Op
  layout : Option TLayout
deriving DecidableEq

/-- The external device compiler: takes a circuit and an optional
`initial_layout` hint, returns a transpiled circuit or fails. -/
abbrev Compiler := Fragment → Option (List Nat) → Except TranspileError Fragment

/-- A list is a permutation of the contiguous domain `0..n`. -/
def PermOn (n : Nat) (l : List Nat) : Prop := List.Perm l (List.range n)

instance (n : Nat) (l : List Nat) : Decidable (PermOn n l) :=
  List.decidablePerm l (List.range n)

/-- Lookup in a Python dict built by `dict(pairs)`: the last binding of a
key wins; `none` models a `KeyError`. -/
def dictLookup (pairs : List (Nat × Nat)) (key : Nat) : Option Nat :=
  (pairs.reverse.find? (fun pr => pr.1 == key)).map Prod.snd

/-- Python `list.index`: index of the first occurrence of a value, `none`
models the `ValueError` raised when the value is absent. -/
def pyIndex : List Nat → Nat → Option Nat
  | [], _ => none
  | y :: t, x => if y = x then some 0 else (pyIndex t x).map (· + 1)

/-- Sequencing of a Python list comprehension whose body may raise: `none`
as soon as one element raises. -/
def seqOption {α β : Type} (f : α → Option β) : List α → Option (List β)
  | [] => some []
  | x :: t =>
    match f x, seqOption f t with
    | some y, some ys => some (y :: ys)
    | _, _ => none

/-- Option-propagating fold used to model loops whose body may raise. -/
def optFold {α : Type} (core : α → Nat → Option α) (l : List Nat) (init : Option α) : Option α :=
  l.foldl (fun acc i => acc.bind (fun a => core a i)) init

/-- Body of the `After Layout Map` loop of `get_full_map`: store
`(in_virtual, out_virtual)` at index `physical`. -/
def alCore (zeroMap : List (Nat × Nat)) (pv : List Nat)
    (a : List (Option (Nat × Nat))) (p : Nat) : Option (List (Option (Nat × Nat))) :=
  match dictLookup zeroMap (pv.getD p 0) with
  | none => none
  | some outV =>
    if p < a.length then some (a.set p (some (pv.getD p 0, outV))) else none

/-- Body of the `After Routing Map` loop of `get_full_map`: move the
out-virtual of row `from_row` to row `to_row = final_layout[from_row]`,
reading only the after-layout map. -/
def arCore (al : List (Option (Nat × Nat))) (fl : List Nat)
    (a : List (Option (Nat × Nat))) (fromRow : Nat) : Option (List (Option (Nat × Nat))) :=
  match fl.get? fromRow with
  | none => none
  | some toRow =>
    match al.getD fromRow none, al.getD toRow none with
    | some fromPr, some toPr =>
      if toRow < a.length then some (a.set toRow (some (toPr.1, fromPr.2))) else none
    | _, _ => none

/-- Body of the inner `Full Map` loop: collect every physical index whose
stored out-virtual is the current out-qubit `v`. -/
def fmCore (ar : List (Option (Nat × Nat))) (v : Nat)
    (l2 : List Nat) (p : Nat) : Option (List Nat) :=
  match ar.getD p none with
  | none => none
  | some pr => some (if pr.2 = v then l2 ++ [p] else l2)

/-- The `Full Map` nested loop of `get_full_map`. -/
def collectFullMap (n : Nat) (ar : List (Option (Nat × Nat))) : Option (List Nat) :=
  optFold (fun fm v => (optFold (fmCore ar v) (List.range ar.length) (some [])).map
    (fun hits => fm ++ hits)) (List.range n) (some [])

/-- Embedding of `get_full_map` (rivet_transpiler/transpiler.py): the final
allocation of virtual qubits of a transpiled circuit, derived from its
layout; `some (List.range numQubits)` when the circuit has no layout. -/
def get_full_map (numQubits : Nat) : Option TLayout → Option (List Nat)
  | none => some (List.range numQubits)
  | some L =>
    let zeroMap := L.inputQubitMapping.zip (List.range numQubits)
    match optFold (alCore zeroMap L.initialPhysToVirt)
        (List.range L.initialPhysToVirt.length)
        (some (List.replicate numQubits none)) with
    | none => none
    | some al =>
      let ar? := match L.finalRouting with
        | none => some al
        | some fl => optFold (arCore al fl) (List.range numQubits) (some al)
      match ar? with
      | none => none
      | some ar => collectFullMap numQubits ar

/-- Routing list of a layout as read by the stitching functions: the list
`[final_layout[qubit] for qubit in circuit.qubits]`, or the identity when
the layout has no final layout. -/
def routingOf (n : Nat) (L : TLayout) : List Nat :=
  match L.finalRouting with
  | none => List.range n
  | some fl => (List.range n).map (fun q => fl.getD q 0)

/-- Routing of an optional final layout, identity when absent. -/
def routeListOf (D : Nat) (o : Option (List Nat)) : List Nat :=
  o.getD (List.range D)

/-- Layout holding a placement `place` and a routing permutation `route`:
`inputQubitMapping` is trivial and `initial_layout` assigns virtual qubit
`v` to physical qubit `place[v]` (stored physical-to-virtual). -/
def mkLayout (D : Nat) (place route : List Nat) : TLayout :=
  { inputQubitMapping := List.range D
    initialPhysToVirt := (List.range D).map (fun p => List.indexOf p place)
    finalRouting := some route }

/-- Entry placement recorded by a layout: the physical qubit at which a
virtual qubit sits before the circuit runs. -/
def placeOfLayout (L : TLayout) (v : Nat) : Nat :=
  List.indexOf v L.initialPhysToVirt

/-- Conversion of a possibly-raising value to the stitching error monad. -/
def toE {α : Type} (o : Option α) (e : TranspileError) : Except TranspileError α :=
  match o with
  | some a => .ok a
  | none => .error e

/-- Embedding of `QuantumCircuit.compose` as used by `transpile_right` and
`transpile_chain`: appends the other circuit's operations; fails when the
other circuit has more qubits than the receiver. The result keeps the
receiver's qubit count and layout. -/
def composeFragments (a b : Fragment) : Except TranspileError Fragment :=
  if a.numQubits < b.numQubits then .error .dimensionMismatch
  else .ok { a with ops := a.ops ++ b.ops }

/-- Embedding of `QuantumCircuit.compose` with `front=True` as used by
`transpile_left`: prepends the other circuit's operations. -/
def composeFront (a b : Fragment) : Except TranspileError Fragment :=
  if a.numQubits < b.numQubits then .error .dimensionMismatch
  else .ok { a with ops := b.ops ++ a.ops }

/-- Inverse of one operation per the operation-inverse contract: defined
exactly when the operation is invertible. -/
def inverseOp (op : Op) : Option Op :=
  if op.invertible then some { op with dagger := !op.dagger } else none

/-- Embedding of `QuantumCircuit.inverse`: reverse the operation order and
invert each operation; fails with `NonInvertibleOperation` when any
operation has no defined inverse. The result carries no layout. -/
def reverseFragment (f : Fragment) : Except TranspileError Fragment :=
  match seqOption inverseOp f.ops.reverse with
  | none => .error .nonInvertibleOperation
  | some ops2 => .ok { f with ops := ops2, layout := none }

/-- Embedding of `transpile_right` (rivet_transpiler/transpiler.py):
transpile the right circuit with the central circuit's full map as
placement hint, compose, and combine the layouts. -/
def transpile_right (central right : Fragment) (c : Compiler) :
    Except TranspileError Fragment := do
  let full_map ← toE (get_full_map central.numQubits central.layout) .layoutError
  let rightT ← c right (some (full_map.take right.numQubits))
  let res ← composeFragments central rightT
  match rightT.layout with
  | none => pure res
  | some Lr =>
    match central.layout with
    | none => pure { res with layout := some Lr }
    | some Lc =>
      let central_routing := routingOf central.numQubits Lc
      let right_routing := routingOf rightT.numQubits Lr
      let final_routing := central_routing.map (fun q => right_routing.getD q 0)
      let tl : TLayout :=
        { inputQubitMapping := Lc.inputQubitMapping
          initialPhysToVirt := Lc.initialPhysToVirt
          finalRouting := some final_routing }
      pure { res with layout := some tl }

/-- Initial-layout hint computed by `transpile_left` from the central
circuit's layout (lines 238-251 of the source). -/
def left_initial_layout (central left : Fragment) : List Nat :=
  match central.layout with
  | none => List.range left.numQubits
  | some Lc =>
    let initial_map := Lc.inputQubitMapping.map (fun v => List.indexOf v Lc.initialPhysToVirt)
    initial_map.take left.numQubits

/-- Central routing as read by `transpile_left`: identity when the central
circuit has no layout or no final layout. -/
def centralRoutingOf (central : Fragment) : List Nat :=
  match central.layout with
  | none => List.range central.numQubits
  | some Lc => routingOf central.numQubits Lc

/-- Embedding of `transpile_left` (rivet_transpiler/transpiler.py):
transpile the time-reversed left circuit against the central circuit's
entry placement, reverse it back, prepend it, and combine the layouts. -/
def transpile_left (central left : Fragment) (c : Compiler) :
    Except TranspileError Fragment := do
  let lil := left_initial_layout central left
  let inverted ← reverseFragment left
  let revT ← c inverted (some lil)
  let tl0 ← reverseFragment revT
  let transpiledLeft : Fragment := { tl0 with layout := revT.layout }
  let res ← composeFront central transpiledLeft
  match transpiledLeft.layout with
  | none => pure res
  | some Lr =>
    let left_routing := routingOf transpiledLeft.numQubits Lr
    let central_routing := centralRoutingOf central
    let final_routing := left_routing.map (fun q => central_routing.getD q 0)
    let initial_map ← toE (get_full_map transpiledLeft.numQubits transpiledLeft.layout) .layoutError
    let patched := (Lr.inputQubitMapping.zip initial_map).foldl
      (fun pv vp => pv.set vp.2 vp.1) Lr.initialPhysToVirt
    let tl : TLayout :=
      { inputQubitMapping := Lr.inputQubitMapping
        initialPhysToVirt := patched
        finalRouting := some final_routing }
    pure { res with layout := some tl }

/-- One iteration of the `transpile_chain` loop: transpile the next circuit
with the fed-forward full map as hint, compose onto the accumulated chain,
and update the full map from the freshly transpiled circuit alone. -/
def chainStep (c : Compiler)
    (st : Option (List Nat) × Option Fragment × Option Fragment) (circuit : Fragment) :
    Except TranspileError (Option (List Nat) × Option Fragment × Option Fragment) := do
  let hint? := st.1.map (fun fm => fm.take circuit.numQubits)
  let t ← c circuit hint?
  let chain2 ← match st.2.1 with
    | none => pure t
    | some ch => composeFragments ch t
  let fm ← toE (get_full_map t.numQubits t.layout) .layoutError
  pure (some fm, some chain2, some t)

/-- Embedding of `transpile_chain` (rivet_transpiler/transpiler.py):
transpile the circuits one by one, feeding forward only the full map, and
give the chain the layout of the last transpiled circuit. An empty input
list raises (`transpiled_circuit` is unbound at the final assignment). -/
def transpile_chain (circuits : List Fragment) (c : Compiler) :
    Except TranspileError Fragment := do
  let st ← circuits.foldlM (chainStep c) (none, none, none)
  match st.2.1, st.2.2 with
  | some chain, some t => pure { chain with layout := t.layout }
  | _, _ => .error .emptyChain

/-- Right-stitching twice, as in the chain-associativity property:
`stitch_right(stitch_right(A_compiled, B), C)`. -/
def transpile_right_twice (tA B C : Fragment) (c : Compiler) :
    Except TranspileError Fragment :=
  (transpile_right tA B c).bind (fun m => transpile_right m C c)

/-- State-passing wrapper for `transpile_right`: the returned pair is the
operands' values after the call, which the source never mutates (it
composes without `inplace` and assigns `_layout` only on fresh circuits). -/
def transpile_right_run (central right : Fragment) (c : Compiler) :
    Except TranspileError Fragment × Fragment × Fragment :=
  (transpile_right central right c, central, right)

/-- State-passing wrapper for `transpile_left`. -/
def transpile_left_run (central left : Fragment) (c : Compiler) :
    Except TranspileError Fragment × Fragment × Fragment :=
  (transpile_left central left c, central, left)

/-- State-passing wrapper for `transpile_chain`. -/
def transpile_chain_run (circuits : List Fragment) (c : Compiler) :
    Except TranspileError Fragment × List Fragment :=
  (transpile_chain circuits c, circuits)

/-- Embedding of `invert_map` (qml_transpiler/transpile_part.py):
`[qubit_map.index(index) for index, qubit in enumerate(qubit_map)]`. -/
def invert_map (qubit_map : List Nat) : Option (List Nat) :=
  seqOption (fun i => pyIndex qubit_map i) (List.range qubit_map.length)

/-- Earliest DAG layer an operation can join, given the next free layer of
every qubit. -/
def opLayer (depths : List Nat) (op : Op) : Nat :=
  op.qubits.foldl (fun m q => max m (depths.getD q 0)) 0

/-- One step of greedy as-soon-as-possible layering, matching how
`qiskit.converters.circuit_to_dag(...).layers()` groups operations. -/
def layerStep (st : List (List Op) × List Nat) (op : Op) : List (List Op) × List Nat :=
  let l := opLayer st.2 op
  let layers := if l < st.1.length then st.1.set l (st.1.getD l [] ++ [op]) else st.1 ++ [[op]]
  let depths := op.qubits.foldl (fun d q => d.set q (l + 1)) st.2
  (layers, depths)

/-- DAG layers of a fragment, earliest-possible assignment, original
relative order kept inside each layer. -/
def circuitLayers (f : Fragment) : List (List Op) :=
  (f.ops.foldl layerStep ([], List.replicate f.numQubits 0)).1

/-- Python `min` over a nonempty list (callers guard against empty). -/
def pymin : List Nat → Nat
  | [] => 0
  | x :: xs => xs.foldl min x

/-- Python `max` over a nonempty list (callers guard against empty). -/
def pymax : List Nat → Nat
  | [] => 0
  | x :: xs => xs.foldl max x

/-- Layer indices of the layers that contain a parameterized operation. -/
def parametrizedLayerIndices (layers : List (List Op)) : List Nat :=
  (List.range layers.length).filter
    (fun i => (layers.getD i []).any (fun op => op.parameterized))

/-- Embedding of `split_parametrized_circuit`
(qml_transpiler/transpile_part.py): partition the DAG layers into the runs
before the first parameterized layer, from the first through the last
parameterized layer, and after it; when no layer is parameterized the
sentinel index `len(layers)` makes the middle and right parts empty. -/
def split_parametrized_circuit (f : Fragment) : Fragment × Fragment × Fragment :=
  let layers := circuitLayers f
  let pIndices := parametrizedLayerIndices layers
  let indices := if pIndices.isEmpty then [layers.length] else pIndices
  let first := pymin indices
  let last := pymax indices
  let leftOps := (layers.take first).flatten
  let centralOps := ((layers.take (last + 1)).drop first).flatten
  let rightOps := (layers.drop (last + 1)).flatten
  ({ numQubits := f.numQubits, ops := leftOps, layout := none },
   { numQubits := f.numQubits, ops := centralOps, layout := none },
   { numQubits := f.numQubits, ops := rightOps, layout := none })

/-- Modelled from the spec: the split described by §4.5, stated over the
raw operation sequence — `left` is everything before the first
parameterized operation, `middle` the minimal contiguous window from the
first to the last parameterized operation inclusive, `right` the
remainder; with no parameterized operation, `middle` is an empty window at
the end and `left` is the whole fragment. Used to compare the code's
layer-based split against the claimed operation-level split. -/
def split_spec (f : Fragment) : Fragment × Fragment × Fragment :=
  let pIdx := (List.range f.ops.length).filter
    (fun i => match f.ops.get? i with | some op => op.parameterized | none => false)
  if pIdx.isEmpty then
    ({ numQubits := f.numQubits, ops := f.ops, layout := none },
     { numQubits := f.numQubits, ops := [], layout := none },
     { numQubits := f.numQubits, ops := [], layout := none })
  else
    let a := pymin pIdx
    let b := pymax pIdx
    ({ numQubits := f.numQubits, ops := f.ops.take a, layout := none },
     { numQubits := f.numQubits, ops := (f.ops.take (b + 1)).drop a, layout := none },
     { numQubits := f.numQubits, ops := f.ops.drop (b + 1), layout := none })

/-- Contract on the external compiler: a hint whose length differs from
the circuit's qubit count is rejected (qiskit raises when `initial_layout`
does not match the circuit size). -/
def HintChecked (c : Compiler) : Prop :=
  ∀ f h, h.length ≠ f.numQubits → c f (some h) = .error .dimensionMismatch

/-- Contract on the external compiler for a device with `D` physical
qubits: every successfully compiled circuit has `D` qubits and a
well-formed layout whose placement follows the supplied hint. -/
def CompilerWF (D : Nat) (c : Compiler) : Prop :=
  ∀ f hint t, c f hint = .ok t →
    t.numQubits = D ∧
    ∃ L r, t.layout = some L ∧
      L.inputQubitMapping = List.range D ∧
      PermOn D L.initialPhysToVirt ∧
      L.finalRouting = some r ∧
      PermOn D r ∧
      (∀ h, hint = some h → ∀ v, v < h.length → v < D →
        placeOfLayout L v = h.getD v 0)

/-! Concrete circuits, layouts and compilers used to evaluate the
engine on explicit inputs. -/

/-- A compiler that always fails. -/
def cFail : Compiler := fun _ _ => .error .compilationError

/-- A compiler that checks the hint length against the circuit size and
otherwise returns the circuit unchanged, as a minimal model of qiskit's
`initial_layout` size check. -/
def strictCompiler : Compiler := fun f hint =>
  match hint with
  | some h => if h.length = f.numQubits then .ok f else .error .dimensionMismatch
  | none => .ok f

/-- A compiler returning its input unchanged. -/
def weakCompiler : Compiler := fun f _ => .ok f

/-- Concrete two-qubit operation of a three-fragment chain example. -/
def opA : Op := ⟨10, [0, 1], true, false, false⟩

/-- Concrete one-qubit operation of a three-fragment chain example. -/
def opB : Op := ⟨11, [0], true, false, false⟩

/-- Concrete two-qubit operation of a three-fragment chain example. -/
def opC : Op := ⟨12, [0, 1], true, false, false⟩

/-- Three-qubit first fragment of the chain example. -/
def frA : Fragment := ⟨3, [opA], none⟩

/-- One-qubit fragment of the chain example. -/
def frB : Fragment := ⟨1, [opB], none⟩

/-- Two-qubit fragment of the chain example. -/
def frC : Fragment := ⟨2, [opC], none⟩

/-- Layout produced for `frA`: trivial placement, routing `[1,2,0]`. -/
def layA : TLayout := ⟨[0, 1, 2], [0, 1, 2], some [1, 2, 0]⟩

/-- Compiled form of `frA`. -/
def tA : Fragment := ⟨3, [⟨10, [0, 1], true, false, false⟩], some layA⟩

/-- Layout produced for `frB` under hint `[1]`: placement `[1,0,2]`. -/
def layB : TLayout := ⟨[0, 1, 2], [1, 0, 2], some [0, 1, 2]⟩

/-- Compiled form of `frB` under hint `[1]`. -/
def tB : Fragment := ⟨3, [⟨11, [1], true, false, false⟩], some layB⟩

/-- Layout produced for `frC` under hint `[1,0]`: placement `[1,0,2]`. -/
def layC1 : TLayout := ⟨[0, 1, 2], [1, 0, 2], some [0, 1, 2]⟩

/-- Compiled form of `frC` under hint `[1,0]`. -/
def tC1 : Fragment := ⟨3, [⟨12, [1, 0], true, false, false⟩], some layC1⟩

/-- Layout produced for `frC` under hint `[1,2]`: placement `[1,2,0]`. -/
def layC2 : TLayout := ⟨[0, 1, 2], [2, 0, 1], some [0, 1, 2]⟩

/-- Compiled form of `frC` under hint `[1,2]`. -/
def tC2 : Fragment := ⟨3, [⟨12, [1, 2], true, false, false⟩], some layC2⟩

/-- Deterministic table compiler for the chain example: placement follows
the hint, remaining qubits fill ascending; only `frA` routes. -/
def cexCompiler : Compiler := fun f hint =>
  if f = frA ∧ hint = none then .ok tA
  else if f = frB ∧ hint = some [1] then .ok tB
  else if f = frC ∧ hint = some [1, 0] then .ok tC1
  else if f = frC ∧ hint = some [1, 2] then .ok tC2
  else .error .compilationError

/-- Invertible one-qubit operation used by the left-stitch example. -/
def opL : Op := ⟨7, [0], true, false, false⟩

/-- Left fragment of the left-stitch example. -/
def frL : Fragment := ⟨2, [opL], none⟩

/-- Time-reversed form of `frL` as produced by `reverseFragment`. -/
def frLrev : Fragment := ⟨2, [⟨7, [0], true, false, true⟩], none⟩

/-- Layout of the compiled reversed left fragment: placement `[1,0]`,
identity routing. -/
def layLrev : TLayout := ⟨[0, 1], [1, 0], some [0, 1]⟩

/-- Compiled form of the reversed left fragment. -/
def tLrev : Fragment := ⟨2, [⟨8, [0], true, false, false⟩], some layLrev⟩

/-- Table compiler for the left-stitch example. -/
def leftCompiler : Compiler := fun f hint =>
  if f = frLrev ∧ hint = some [0, 1] then .ok tLrev
  else .error .compilationError

/-- Non-invertible (measurement-like) operation. -/
def opMeas : Op := ⟨5, [0], false, false, false⟩

/-- Fragment containing a measurement-like operation. -/
def frMeas : Fragment := ⟨1, [opMeas], none⟩

/-- Two-qubit right fragment carrying a layout, for the layout-forwarding
example. -/
def frRightLaid : Fragment := ⟨2, [opB], some ⟨[0, 1], [0, 1], none⟩⟩

/-- Non-parameterized one-qubit operation on qubit 0. -/
def opH0 : Op := ⟨0, [0], true, false, false⟩

/-- Parameterized one-qubit operation on qubit 1. -/
def opRX : Op := ⟨1, [1], true, true, false⟩

/-- Non-parameterized one-qubit operation on qubit 1. -/
def opH1 : Op := ⟨2, [1], true, false, false⟩

/-- Fragment whose first DAG layer mixes a non-parameterized operation with
the only parameterized one. -/
def fragSplit : Fragment := ⟨2, [opH0, opRX, opH1], none⟩

/-! Reduction lemmas for the error monad. -/

/-- Binding a successful `Except` computation applies the continuation. -/
theorem exBind_ok {ε α β : Type} (a : α) (f : α → Except ε β) :
    (Except.ok a >>= f) = f a := rfl

/-- Binding a failed `Except` computation propagates the error. -/
theorem exBind_err {ε α β : Type} (e : ε) (f : α → Except ε β) :
    ((Except.error e : Except ε α) >>= f) = .error e := rfl

/-- Pure value in the `Except` monad. -/
theorem exPure {ε α : Type} (a : α) : (pure a : Except ε α) = .ok a := rfl

/-! Permutation helper lemmas. -/

/-- Length of a permutation of `0..n`. -/
theorem permOn_length {n : Nat} {l : List Nat} (h : PermOn n l) : l.length = n := by
  simpa using h.length_eq

/-- A permutation of `0..n` has no duplicates. -/
theorem permOn_nodup {n : Nat} {l : List Nat} (h : PermOn n l) : l.Nodup :=
  h.nodup_iff.mpr (List.nodup_range n)

/-- Membership in a permutation of `0..n`. -/
theorem permOn_mem {n : Nat} {l : List Nat} (h : PermOn n l) (x : Nat) : x ∈ l ↔ x < n := by
  rw [h.mem_iff, List.mem_range]

/-- A duplicate-free list of `n` values below `n` is a permutation of `0..n`. -/
theorem permOn_of_nodup_lt {n : Nat} {l : List Nat} (hlen : l.length = n) (hnd : l.Nodup)
    (hlt : ∀ x ∈ l, x < n) : PermOn n l := by
  have hsub : l.Subperm (List.range n) :=
    List.subperm_of_subset hnd (fun x hx => List.mem_range.mpr (hlt x hx))
  exact hsub.perm_of_length_le (by simp [hlen])

/-- Values of a permutation of `0..n` are below `n`. -/
theorem permOn_getD_lt {n : Nat} {l : List Nat} (h : PermOn n l) {i : Nat} (hi : i < n) :
    l.getD i 0 < n := by
  have hil : i < l.length := by rw [permOn_length h]; exact hi
  rw [List.getD_eq_getElem l 0 hil]
  exact (permOn_mem h _).mp (List.getElem_mem hil)

/-- Index of a value in a permutation of `0..n` is below `n`. -/
theorem permOn_indexOf_lt {n : Nat} {l : List Nat} (h : PermOn n l) {x : Nat} (hx : x < n) :
    List.indexOf x l < n := by
  rw [← permOn_length h]
  exact List.indexOf_lt_length.mpr ((permOn_mem h x).mpr hx)

/-- Reading a permutation at the index of a value gives the value back. -/
theorem permOn_getD_indexOf {n : Nat} {l : List Nat} (h : PermOn n l) {x : Nat} (hx : x < n) :
    l.getD (List.indexOf x l) 0 = x := by
  have hlt : List.indexOf x l < l.length := by
    rw [permOn_length h]; exact permOn_indexOf_lt h hx
  rw [List.getD_eq_getElem l 0 hlt]
  exact List.indexOf_get hlt

/-- Index of a read value is the read position, in a duplicate-free
permutation of `0..n`. -/
theorem permOn_indexOf_getD {n : Nat} {l : List Nat} (h : PermOn n l) {i : Nat} (hi : i < n) :
    List.indexOf (l.getD i 0) l = i := by
  have hil : i < l.length := by rw [permOn_length h]; exact hi
  rw [List.getD_eq_getElem l 0 hil]
  have := List.get_indexOf (permOn_nodup h) ⟨i, hil⟩
  simpa using this

/-- Reading a permutation of `0..n` is injective. -/
theorem permOn_getD_inj {n : Nat} {l : List Nat} (h : PermOn n l) {i j : Nat}
    (hi : i < n) (hj : j < n) (he : l.getD i 0 = l.getD j 0) : i = j := by
  have h1 := permOn_indexOf_getD h hi
  rw [he, permOn_indexOf_getD h hj] at h1
  exact h1.symm

/-- Uniqueness: a position reading `x` is the index of `x`. -/
theorem permOn_indexOf_eq {n : Nat} {l : List Nat} (h : PermOn n l) {i x : Nat}
    (hi : i < n) (hx : l.getD i 0 = x) : List.indexOf x l = i := by
  subst hx; exact permOn_indexOf_getD h hi

/-- The identity list is a permutation of `0..n`. -/
theorem permOn_range (n : Nat) : PermOn n (List.range n) := List.Perm.refl _

/-- Reading the identity list. -/
theorem getD_range {n i : Nat} (hi : i < n) (d : Nat) : (List.range n).getD i d = i := by
  rw [List.getD_eq_getElem _ d (by simpa using hi)]
  exact List.getElem_range i _

/-- Reindexing a list of length `n` over `0..n` reproduces the list. -/
theorem map_getD_range_eq {n : Nat} {l : List Nat} (hlen : l.length = n) (d : Nat) :
    (List.range n).map (fun q => l.getD q d) = l := by
  apply List.ext_getElem (by simpa using hlen.symm)
  intro i h1 h2
  rw [List.getElem_map]
  rw [List.getElem_range]
  exact List.getD_eq_getElem l d h2

/-- Composition of two permutations of `0..n` by list indexing. -/
theorem permOn_map_comp {n : Nat} {a b : List Nat} (ha : PermOn n a) (hb : PermOn n b) :
    PermOn n (a.map (fun q => b.getD q 0)) := by
  have h1 : List.Perm (a.map (fun q => b.getD q 0)) ((List.range n).map (fun q => b.getD q 0)) :=
    List.Perm.map _ ha
  rw [map_getD_range_eq (permOn_length hb) 0] at h1
  exact h1.trans hb

/-- The inverse table of a placement is a permutation of `0..n`. -/
theorem permOn_inv_map {n : Nat} {place : List Nat} (h : PermOn n place) :
    PermOn n ((List.range n).map (fun p => List.indexOf p place)) := by
  apply permOn_of_nodup_lt (by simp)
  · apply List.Nodup.map_on _ (List.nodup_range n)
    intro x hx y hy hxy
    have hx' : x < n := List.mem_range.mp hx
    have hy' : y < n := List.mem_range.mp hy
    have h1 := permOn_getD_indexOf h hx'
    rw [hxy, permOn_getD_indexOf h hy'] at h1
    exact h1.symm
  · intro x hx
    obtain ⟨p, hp, rfl⟩ := List.mem_map.mp hx
    exact permOn_indexOf_lt h (List.mem_range.mp hp)

/-! Fold helper lemmas. -/

/-- An option-propagating fold whose every step succeeds under an invariant
computes the plain fold. -/
theorem optFold_eq_some {α : Type} (core : α → Nat → Option α) (g : α → Nat → α)
    (P : α → Prop) :
    ∀ (l : List Nat), (∀ a i, P a → i ∈ l → core a i = some (g a i) ∧ P (g a i)) →
      ∀ init, P init → optFold core l (some init) = some (l.foldl g init) := by
  intro l
  induction l with
  | nil => intro _ init _; simp [optFold]
  | cons x xs ih =>
    intro h init hP
    obtain ⟨hc, hP'⟩ := h init x hP (by simp)
    have hrest : ∀ a i, P a → i ∈ xs → core a i = some (g a i) ∧ P (g a i) :=
      fun a i ha hi => h a i ha (by simp [hi])
    calc optFold core (x :: xs) (some init)
        = optFold core xs (some (g init x)) := by simp [optFold, hc]
      _ = some (List.foldl g (g init x) xs) := ih hrest (g init x) hP'
      _ = some (List.foldl g init (x :: xs)) := by simp

/-- A fold of in-place updates keeps the list length. -/
theorem length_foldl_set {α : Type} (σ : Nat → Nat) (F : Nat → α) :
    ∀ (l : List Nat) (init : List α),
      (l.foldl (fun acc i => acc.set (σ i) (F i)) init).length = init.length := by
  intro l
  induction l with
  | nil => intro init; rfl
  | cons x xs ih => intro init; simp [List.foldl_cons, ih]

/-- Reading an updated list. -/
theorem getD_set_lt {α : Type} {l : List α} {q p : Nat} (a d : α) (hp : p < l.length) :
    (l.set q a).getD p d = if q = p then a else l.getD p d := by
  have hp' : p < (l.set q a).length := by simpa using hp
  rw [List.getD_eq_getElem _ d hp', List.getElem_set]
  split
  · rfl
  · exact (List.getD_eq_getElem l d hp).symm

/-- Closed form of a loop writing `F i` at position `σ i` for `i` below `m`:
position `p` holds `F (τ p)` exactly when its unique writer has run. -/
theorem foldl_set_closed {α : Type} (d : α) (D : Nat) (σ τ : Nat → Nat)
    (hinv : ∀ i, i < D → τ (σ i) = i) (F : Nat → α) :
    ∀ (m : Nat), m ≤ D → ∀ (init : List α), init.length = D → ∀ p, p < D →
      ((List.range m).foldl (fun acc i => acc.set (σ i) (F i)) init).getD p d
        = if σ (τ p) = p ∧ τ p < m then F (τ p) else init.getD p d := by
  intro m
  induction m with
  | zero => intro _ init _ p _; simp
  | succ m ih =>
    intro hm init hlen p hp
    have hm' : m ≤ D := Nat.le_of_succ_le hm
    have hmD : m < D := Nat.lt_of_succ_le hm
    rw [List.range_succ, List.foldl_append]
    set X := (List.range m).foldl (fun acc i => acc.set (σ i) (F i)) init with hX
    have hXlen : X.length = D := by rw [hX, length_foldl_set]; exact hlen
    have hpX : p < X.length := by rw [hXlen]; exact hp
    simp only [List.foldl_cons, List.foldl_nil]
    rw [getD_set_lt _ d hpX]
    by_cases hcase : σ m = p
    · have hτ : τ p = m := by rw [← hcase, hinv m hmD]
      rw [if_pos hcase]
      rw [if_pos ⟨by rw [hτ, hcase], by rw [hτ]; exact Nat.lt_succ_self m⟩]
      rw [hτ]
    · rw [if_neg hcase, ih hm' init hlen p hp]
      by_cases hfix : σ (τ p) = p
      · have hne : τ p ≠ m := fun he => hcase (by rw [← he]; exact hfix)
        have : (τ p < m + 1) ↔ (τ p < m) := by
          constructor
          · intro hlt; exact Nat.lt_of_le_of_ne (Nat.le_of_lt_succ hlt) hne
          · intro hlt; exact Nat.lt_succ_of_lt hlt
        simp [hfix, this]
      · simp [hfix]

/-- A conditional-append fold computes a filter. -/
theorem foldl_filter_append (Q : Nat → Prop) [DecidablePred Q] :
    ∀ (l : List Nat) (acc : List Nat),
      l.foldl (fun l2 p => if Q p then l2 ++ [p] else l2) acc
        = acc ++ l.filter (fun p => decide (Q p)) := by
  intro l
  induction l with
  | nil => intro acc; simp
  | cons x xs ih =>
    intro acc
    by_cases hx : Q x
    · simp [List.foldl_cons, hx, ih, List.filter_cons]
    · simp [List.foldl_cons, hx, ih, List.filter_cons]

/-- Filtering a duplicate-free list by a predicate holding exactly at one
member yields that member alone. -/
theorem filter_singleton_of_unique (Q : Nat → Prop) [DecidablePred Q] :
    ∀ (l : List Nat), l.Nodup → ∀ a, a ∈ l → (∀ x ∈ l, Q x ↔ x = a) →
      l.filter (fun x => decide (Q x)) = [a] := by
  intro l
  induction l with
  | nil => intro _ a ha; exact absurd ha (List.not_mem_nil a)
  | cons y ys ih =>
    intro hnd a ha hQ
    have hynotin : y ∉ ys := (List.nodup_cons.mp hnd).1
    rcases List.mem_cons.mp ha with hay | hay
    · subst hay
      have hQy : Q a := (hQ a (by simp)).mpr rfl
      have hnone : ys.filter (fun z => decide (Q z)) = [] := by
        rw [List.filter_eq_nil_iff]
        intro z hz
        simp only [decide_eq_true_eq]
        intro hQz
        have hza := (hQ z (by simp [hz])).mp hQz
        rw [hza] at hz
        exact hynotin hz
      simp [List.filter_cons, hQy, hnone]
    · have hya : ¬Q y := by
        intro hQy
        have h2 := (hQ y (by simp)).mp hQy
        rw [h2] at hynotin
        exact hynotin hay
      have hrec := ih (List.nodup_cons.mp hnd).2 a hay (fun z hz => hQ z (by simp [hz]))
      simp [List.filter_cons, hya, hrec]

/-- An unconditional-append fold computes a map. -/
theorem foldl_map_append {β : Type} (e : Nat → β) :
    ∀ (l : List Nat) (acc : List β),
      l.foldl (fun fm v => fm ++ [e v]) acc = acc ++ l.map e := by
  intro l
  induction l with
  | nil => intro acc; simp
  | cons x xs ih => intro acc; simp [List.foldl_cons, ih]

/-! Dictionary and index lemmas. -/

/-- Lookup in the trivial zero map `dict(zip(range n, range n))`. -/
theorem dictLookup_zip_range (n : Nat) (x : Nat) :
    dictLookup ((List.range n).zip (List.range n)) x = if x < n then some x else none := by
  induction n with
  | zero => simp [dictLookup]
  | succ n ih =>
    have hz : (List.range (n + 1)).zip (List.range (n + 1))
        = (List.range n).zip (List.range n) ++ [(n, n)] := by
      rw [List.range_succ, List.zip_append rfl]
      rfl
    have hrev : ((List.range n).zip (List.range n) ++ [(n, n)]).reverse
        = (n, n) :: ((List.range n).zip (List.range n)).reverse := by
      rw [List.reverse_append]
      rfl
    unfold dictLookup at ih ⊢
    rw [hz, hrev, List.find?_cons]
    by_cases hx : x = n
    · subst hx
      simp
    · have hbeq : (n == x) = false := by
        simp only [beq_eq_false_iff_ne, ne_eq]
        exact fun h => hx h.symm
      simp only [hbeq]
      rw [ih]
      by_cases hlt : x < n
      · simp [hlt, Nat.lt_succ_of_lt hlt]
      · have hnlt : ¬x < n + 1 := by
          intro hc
          exact hx (Nat.eq_of_lt_succ_of_not_lt hc hlt)
        simp [hlt, hnlt]

/-- A value below the length of a list is found by `get?`. -/
theorem get?_eq_some_getD {α : Type} {l : List α} {i : Nat} (d : α) (hi : i < l.length) :
    l.get? i = some (l.getD i d) := by
  rw [List.get?_eq_getElem?, List.getElem?_eq_getElem hi, List.getD_eq_getElem l d hi]

/-- Python `list.index` finds a member at its first index. -/
theorem pyIndex_of_mem {l : List Nat} {x : Nat} (hx : x ∈ l) :
    pyIndex l x = some (List.indexOf x l) := by
  induction l with
  | nil => exact absurd hx (List.not_mem_nil x)
  | cons y t ih =>
    by_cases hyx : y = x
    · subst hyx
      simp [pyIndex, List.indexOf_cons]
    · have hbeq : (y == x) = false := by simpa using hyx
      have hxt : x ∈ t := by
        rcases List.mem_cons.mp hx with h | h
        · exact absurd h.symm hyx
        · exact h
      simp [pyIndex, hyx, List.indexOf_cons, hbeq, ih hxt]

/-- Python `list.index` raises exactly on a missing value. -/
theorem pyIndex_of_not_mem {l : List Nat} {x : Nat} (hx : x ∉ l) : pyIndex l x = none := by
  induction l with
  | nil => rfl
  | cons y t ih =>
    have hyx : y ≠ x := fun h => hx (by simp [h])
    have hxt : x ∉ t := fun h => hx (by simp [h])
    simp [pyIndex, hyx, ih hxt]

/-- A sequenced comprehension fails as soon as one element fails. -/
theorem seqOption_none {α β : Type} (f : α → Option β) :
    ∀ (l : List α) (x : α), x ∈ l → f x = none → seqOption f l = none := by
  intro l
  induction l with
  | nil => intro x hx; exact absurd hx (List.not_mem_nil x)
  | cons y t ih =>
    intro x hx hfx
    rcases List.mem_cons.mp hx with h | h
    · subst h
      simp [seqOption, hfx]
    · rw [seqOption, ih x h hfx]
      cases f y <;> rfl

/-- A sequenced comprehension whose elements all succeed computes the map. -/
theorem seqOption_some {α β : Type} (f : α → Option β) (g : α → β) :
    ∀ (l : List α), (∀ x ∈ l, f x = some (g x)) → seqOption f l = some (l.map g) := by
  intro l
  induction l with
  | nil => intro _; rfl
  | cons y t ih =>
    intro h
    have hy := h y (by simp)
    have ht := ih (fun x hx => h x (by simp [hx]))
    simp [seqOption, hy, ht]

/-! Closed forms for the three phases of `get_full_map`. -/

/-- The `After Layout Map` loop stores `(pv[p], pv[p])` at every physical
position `p` when the layout is well formed. -/
theorem alPhase (D : Nat) (pv : List Nat) (hpv : PermOn D pv) :
    ∃ al, optFold (alCore ((List.range D).zip (List.range D)) pv) (List.range pv.length)
        (some (List.replicate D (none : Option (Nat × Nat)))) = some al
      ∧ al.length = D
      ∧ ∀ p, p < D → al.getD p none = some (pv.getD p 0, pv.getD p 0) := by
  have hlen : pv.length = D := permOn_length hpv
  rw [hlen]
  have hconv := optFold_eq_some (alCore ((List.range D).zip (List.range D)) pv)
    (fun a p => a.set p (some (pv.getD p 0, pv.getD p 0)))
    (fun a => a.length = D) (List.range D)
    (by
      intro a p hP hp
      have hpD := List.mem_range.mp hp
      have hval : pv.getD p 0 < D := permOn_getD_lt hpv hpD
      constructor
      · have hy : p < a.length := by rw [hP]; exact hpD
        simp only [alCore, dictLookup_zip_range, if_pos hval, if_pos hy]
      · simp [hP])
    (List.replicate D none) (by simp)
  refine ⟨_, hconv, ?_, ?_⟩
  · rw [length_foldl_set (fun i => i) (fun p => some (pv.getD p 0, pv.getD p 0))]
    simp
  · intro p hp
    rw [foldl_set_closed none D (fun i => i) (fun i => i) (fun i _ => rfl)
      (fun p => some (pv.getD p 0, pv.getD p 0)) D (Nat.le_refl D)
      (List.replicate D none) (by simp) p hp]
    simp [hp]

/-- The `After Routing Map` loop relocates out-virtuals along the final
layout: position `p` ends with `(pv[p], pv[fl⁻¹[p]])`. -/
theorem arPhase (D : Nat) (pv fl : List Nat) (al : List (Option (Nat × Nat)))
    (hfl : PermOn D fl) (hallen : al.length = D)
    (hal : ∀ p, p < D → al.getD p none = some (pv.getD p 0, pv.getD p 0)) :
    ∃ ar, optFold (arCore al fl) (List.range D) (some al) = some ar
      ∧ ar.length = D
      ∧ ∀ p, p < D → ar.getD p none
          = some (pv.getD p 0, pv.getD (List.indexOf p fl) 0) := by
  have hconv := optFold_eq_some (arCore al fl)
    (fun a i => a.set (fl.getD i 0) (some (pv.getD (fl.getD i 0) 0, pv.getD i 0)))
    (fun a => a.length = D) (List.range D)
    (by
      intro a i hP hi
      have hiD := List.mem_range.mp hi
      have htoD : fl.getD i 0 < D := permOn_getD_lt hfl hiD
      have hget : fl.get? i = some (fl.getD i 0) :=
        get?_eq_some_getD 0 (by rw [permOn_length hfl]; exact hiD)
      constructor
      · have hy : fl.getD i 0 < a.length := by rw [hP]; exact htoD
        simp only [arCore, hget, hal i hiD, hal (fl.getD i 0) htoD, if_pos hy]
      · simp [hP])
    al hallen
  refine ⟨_, hconv, ?_, ?_⟩
  · rw [length_foldl_set (fun i => fl.getD i 0)
      (fun i => some (pv.getD (fl.getD i 0) 0, pv.getD i 0))]
    exact hallen
  · intro p hp
    have hidx : List.indexOf p fl < D := permOn_indexOf_lt hfl hp
    rw [foldl_set_closed none D (fun i => fl.getD i 0) (fun q => List.indexOf q fl)
      (fun i hiD => permOn_indexOf_getD hfl hiD)
      (fun i => some (pv.getD (fl.getD i 0) 0, pv.getD i 0)) D (Nat.le_refl D)
      al hallen p hp]
    rw [if_pos ⟨permOn_getD_indexOf hfl hp, hidx⟩]
    rw [permOn_getD_indexOf hfl hp]

/-- The `Full Map` nested loop lists, for each out-qubit `v`, the unique
physical position holding `v`. -/
theorem collectPhase (D : Nat) (ar : List (Option (Nat × Nat)))
    (g : Nat → Nat × Nat) (e : Nat → Nat)
    (hlen : ar.length = D)
    (hent : ∀ p, p < D → ar.getD p none = some (g p))
    (he1 : ∀ v, v < D → e v < D)
    (he2 : ∀ v, v < D → (g (e v)).2 = v)
    (hinj : ∀ p q, p < D → q < D → (g p).2 = (g q).2 → p = q) :
    collectFullMap D ar = some ((List.range D).map e) := by
  unfold collectFullMap
  rw [hlen]
  have hinner : ∀ v, v < D →
      optFold (fmCore ar v) (List.range D) (some []) = some [e v] := by
    intro v hv
    have hconv := optFold_eq_some (fmCore ar v)
      (fun l2 p => if (g p).2 = v then l2 ++ [p] else l2)
      (fun _ => True) (List.range D)
      (by
        intro l2 p _ hp
        have hpD := List.mem_range.mp hp
        constructor
        · simp only [fmCore, hent p hpD]
        · trivial)
      [] trivial
    rw [hconv]
    rw [foldl_filter_append (fun p => (g p).2 = v)]
    rw [filter_singleton_of_unique (fun p => (g p).2 = v) (List.range D)
      (List.nodup_range D) (e v) (List.mem_range.mpr (he1 v hv))
      (by
        intro x hx
        have hxD := List.mem_range.mp hx
        constructor
        · intro hgx
          exact hinj x (e v) hxD (he1 v hv) (by rw [hgx, he2 v hv])
        · intro hxe
          subst hxe
          exact he2 v hv)]
    rfl
  have houter := optFold_eq_some
    (fun fm v => (optFold (fmCore ar v) (List.range D) (some [])).map (fun hits => fm ++ hits))
    (fun fm v => fm ++ [e v])
    (fun _ => True) (List.range D)
    (by
      intro fm v _ hv
      have hvD := List.mem_range.mp hv
      constructor
      · simp [hinner v hvD]
      · trivial)
    [] trivial
  rw [houter, foldl_map_append e]
  rfl

/-- Closed form of `get_full_map` on a well-formed layout: virtual qubit
`v` ends at `route[place[v]]`, where the placement is the inverse of the
stored physical-to-virtual table and the routing defaults to the
identity. -/
theorem get_full_map_formula (D : Nat) (L : TLayout)
    (him : L.inputQubitMapping = List.range D)
    (hpv : PermOn D L.initialPhysToVirt)
    (hrt : PermOn D (routeListOf D L.finalRouting)) :
    get_full_map D (some L) = some ((List.range D).map
      (fun v => (routeListOf D L.finalRouting).getD (List.indexOf v L.initialPhysToVirt) 0)) := by
  obtain ⟨im, pv, fr⟩ := L
  simp only at him hpv hrt ⊢
  subst him
  obtain ⟨al, hal1, hal2, hal3⟩ := alPhase D pv hpv
  cases fr with
  | none =>
    have hcol := collectPhase D al (fun p => (pv.getD p 0, pv.getD p 0))
      (fun v => List.indexOf v pv) hal2 hal3
      (fun v hv => permOn_indexOf_lt hpv hv)
      (fun v hv => permOn_getD_indexOf hpv hv)
      (fun p q hp hq h => permOn_getD_inj hpv hp hq h)
    simp only [get_full_map, hal1, hcol]
    congr 1
    apply List.map_congr_left
    intro v hv
    have hvD := List.mem_range.mp hv
    simp only [routeListOf, Option.getD_none]
    rw [getD_range (permOn_indexOf_lt hpv hvD)]
  | some fl =>
    have hfl : PermOn D fl := hrt
    obtain ⟨ar, har1, har2, har3⟩ := arPhase D pv fl al hfl hal2 hal3
    have hcol := collectPhase D ar (fun p => (pv.getD p 0, pv.getD (List.indexOf p fl) 0))
      (fun v => fl.getD (List.indexOf v pv) 0) har2 har3
      (fun v hv => permOn_getD_lt hfl (permOn_indexOf_lt hpv hv))
      (fun v hv => by
        have hidx : List.indexOf v pv < D := permOn_indexOf_lt hpv hv
        simp only
        rw [permOn_indexOf_getD hfl hidx, permOn_getD_indexOf hpv hv])
      (fun p q hp hq h => by
        have hip : List.indexOf p fl < D := permOn_indexOf_lt hfl hp
        have hiq : List.indexOf q fl < D := permOn_indexOf_lt hfl hq
        have hixeq := permOn_getD_inj hpv hip hiq h
        have h1 := permOn_getD_indexOf hfl hp
        rw [hixeq, permOn_getD_indexOf hfl hq] at h1
        exact h1.symm)
    simp only [get_full_map, hal1, har1, hcol]
    rfl

/-- Reading a mapped range at an in-bounds index. -/
theorem getD_map_range {β : Type} (f : Nat → β) {n i : Nat} (hi : i < n) (d : β) :
    ((List.range n).map f).getD i d = f i := by
  have hlen : i < ((List.range n).map f).length := by simpa using hi
  rw [List.getD_eq_getElem _ d hlen, List.getElem_map]
  congr 1
  exact List.getElem_range i _

/-- The closed-form full map of a well-formed layout is itself a
permutation of the device positions. -/
theorem permOn_full_map {D : Nat} {pv r : List Nat} (hpv : PermOn D pv) (hr : PermOn D r) :
    PermOn D ((List.range D).map (fun v => r.getD (List.indexOf v pv) 0)) := by
  have h1 : (List.range D).map (fun v => r.getD (List.indexOf v pv) 0)
      = ((List.range D).map (fun v => List.indexOf v pv)).map (fun q => r.getD q 0) := by
    rw [List.map_map]
    rfl
  rw [h1]
  exact permOn_map_comp (permOn_inv_map hpv) hr

/-- C1: the full map composes routing after placement. -/
theorem full_map_composition_law (D : Nat) (place route : List Nat)
    (hp : PermOn D place) (hr : PermOn D route) :
    get_full_map D (some (mkLayout D place route))
      = some ((List.range D).map (fun v => route.getD (place.getD v 0) 0)) := by
  have hpv : PermOn D ((List.range D).map (fun p => List.indexOf p place)) :=
    permOn_inv_map hp
  have h1 := get_full_map_formula D (mkLayout D place route) rfl hpv hr
  rw [h1]
  congr 1
  apply List.map_congr_left
  intro v hv
  have hvD := List.mem_range.mp hv
  have hplv : place.getD v 0 < D := permOn_getD_lt hp hvD
  have hpvval : ((List.range D).map (fun p => List.indexOf p place)).getD (place.getD v 0) 0 = v := by
    rw [getD_map_range _ hplv]
    exact permOn_indexOf_getD hp hvD
  have hidx : List.indexOf v ((List.range D).map (fun p => List.indexOf p place))
      = place.getD v 0 := permOn_indexOf_eq hpv hplv hpvval
  show (routeListOf D (some route)).getD
    (List.indexOf v (mkLayout D place route).initialPhysToVirt) 0 = _
  rw [show (mkLayout D place route).initialPhysToVirt
    = (List.range D).map (fun p => List.indexOf p place) from rfl]
  rw [hidx]
  rfl

/-- C1 witness: the concrete scenario `place=[1,0,2]`, `route=[0,2,1]` on a
3-qubit device yields `full_map = [2,0,1]`. -/
theorem full_map_composition_law_witness :
    PermOn 3 [1, 0, 2] ∧ PermOn 3 [0, 2, 1] ∧
    get_full_map 3 (some (mkLayout 3 [1, 0, 2] [0, 2, 1])) = some [2, 0, 1] := by
  refine ⟨by decide, by decide, ?_⟩
  rw [full_map_composition_law 3 [1, 0, 2] [0, 2, 1] (by decide) (by decide)]
  decide

/-- C9: inverting a bijection over `0..D` gives the permutation sending
`p[i]` back to `i` (so composing either way is the identity), and
`invert_map` fails on every non-bijective input. -/
theorem invert_map_law (D : Nat) (p : List Nat) :
    (PermOn D p →
      invert_map p = some ((List.range D).map (fun i => List.indexOf i p)) ∧
      PermOn D ((List.range D).map (fun i => List.indexOf i p)) ∧
      (∀ i, i < D →
        ((List.range D).map (fun j => List.indexOf j p)).getD (p.getD i 0) 0 = i) ∧
      (∀ i, i < D →
        p.getD (((List.range D).map (fun j => List.indexOf j p)).getD i 0) 0 = i)) ∧
    (¬PermOn p.length p → invert_map p = none) := by
  constructor
  · intro hp
    have hlen : p.length = D := permOn_length hp
    refine ⟨?_, permOn_inv_map hp, ?_, ?_⟩
    · unfold invert_map
      rw [hlen]
      exact seqOption_some _ (fun i => List.indexOf i p) (List.range D)
        (fun i hi => pyIndex_of_mem ((permOn_mem hp i).mpr (List.mem_range.mp hi)))
    · intro i hi
      rw [getD_map_range _ (permOn_getD_lt hp hi)]
      exact permOn_indexOf_getD hp hi
    · intro i hi
      rw [getD_map_range _ hi]
      exact permOn_getD_indexOf hp hi
  · intro hnp
    have hmiss : ∃ i, i < p.length ∧ i ∉ p := by
      by_contra hall
      push_neg at hall
      have hsub : (List.range p.length).Subperm p :=
        List.subperm_of_subset (List.nodup_range _)
          (fun x hx => hall x (List.mem_range.mp hx))
      exact hnp ((hsub.perm_of_length_le (by simp)).symm)
    obtain ⟨i, hi, hnotin⟩ := hmiss
    unfold invert_map
    exact seqOption_none _ (List.range p.length) i (List.mem_range.mpr hi)
      (pyIndex_of_not_mem hnotin)

/-- C9 witness: a concrete bijection inverts to the expected permutation
and concrete non-bijections are rejected. -/
theorem invert_map_law_witness :
    invert_map [2, 0, 1] = some [1, 2, 0] ∧ invert_map [0, 0, 2] = none := by
  constructor
  · have h := ((invert_map_law 3 [2, 0, 1]).1 (by decide)).1
    rw [h]
    decide
  · exact (invert_map_law 3 [0, 0, 2]).2 (by decide)

/-- C10: when the central circuit has no layout and the compiled right
circuit has one, the composite takes the right circuit's layout verbatim. -/
theorem stitch_right_forwards_right_layout
    (central right rightT : Fragment) (c : Compiler) (Lr : TLayout)
    (hc : central.layout = none)
    (hrun : c right (some ((List.range central.numQubits).take right.numQubits)) = .ok rightT)
    (hr : rightT.layout = some Lr)
    (hcomp : rightT.numQubits ≤ central.numQubits) :
    transpile_right central right c
      = .ok ⟨central.numQubits, central.ops ++ rightT.ops, some Lr⟩ := by
  unfold transpile_right
  rw [hc]
  simp only [get_full_map, toE, exBind_ok]
  rw [hrun]
  simp only [exBind_ok, composeFragments, if_neg (Nat.not_lt.mpr hcomp), hr, exPure]

/-- C10 witness: forwarding of the right layout on concrete circuits. -/
theorem stitch_right_forwards_right_layout_witness :
    transpile_right ⟨3, [opA], none⟩ frRightLaid weakCompiler
      = .ok ⟨3, [opA] ++ frRightLaid.ops, some ⟨[0, 1], [0, 1], none⟩⟩ := by
  exact stitch_right_forwards_right_layout ⟨3, [opA], none⟩ frRightLaid frRightLaid
    weakCompiler ⟨[0, 1], [0, 1], none⟩ rfl rfl rfl (by decide)

/-- C5: a right fragment wider than the central circuit makes the stitch
fail with a dimension mismatch — the truncated placement hint no longer
matches the right circuit's qubit count and the compiler rejects it. -/
theorem stitch_right_dimension_mismatch
    (central right : Fragment) (c : Compiler) (fm : List Nat)
    (hhc : HintChecked c)
    (hfm : get_full_map central.numQubits central.layout = some fm)
    (hfml : fm.length = central.numQubits)
    (hN : central.numQubits < right.numQubits) :
    transpile_right central right c = .error .dimensionMismatch := by
  have htl : (fm.take right.numQubits).length ≠ right.numQubits := by
    rw [List.length_take, hfml, Nat.min_eq_right (Nat.le_of_lt hN)]
    exact Nat.ne_of_lt hN
  have herr := hhc right (fm.take right.numQubits) htl
  unfold transpile_right
  rw [hfm]
  simp only [toE, exBind_ok]
  rw [herr]
  simp only [exBind_err]

/-- C5 witness: a 3-qubit right fragment cannot be stitched after a
2-qubit central circuit. -/
theorem stitch_right_dimension_mismatch_witness :
    transpile_right ⟨2, [], none⟩ ⟨3, [], none⟩ strictCompiler
      = .error .dimensionMismatch := by
  apply stitch_right_dimension_mismatch ⟨2, [], none⟩ ⟨3, [], none⟩ strictCompiler [0, 1]
  · intro f h hlen
    simp only [strictCompiler, if_neg hlen]
  · decide
  · decide
  · decide

/-- C6: left-stitching a fragment containing an operation without a
defined inverse fails with `NonInvertibleOperation` before anything is
compiled or composed. -/
theorem stitch_left_non_invertible
    (central left : Fragment) (c : Compiler) (op : Op)
    (hop : op ∈ left.ops) (hinv : op.invertible = false) :
    transpile_left central left c = .error .nonInvertibleOperation := by
  have hrev : reverseFragment left = .error .nonInvertibleOperation := by
    unfold reverseFragment
    rw [seqOption_none inverseOp left.ops.reverse op (List.mem_reverse.mpr hop)
      (by simp [inverseOp, hinv])]
  unfold transpile_left
  simp only [hrev, exBind_err]

/-- C6 witness: a measurement-like operation is rejected. -/
theorem stitch_left_non_invertible_witness :
    transpile_left ⟨3, [], none⟩ frMeas cFail = .error .nonInvertibleOperation := by
  exact stitch_left_non_invertible ⟨3, [], none⟩ frMeas cFail opMeas (by decide) rfl

/-- C7: a failing stitch returns an error carrying no composite, and the
operand fragments — immutable values never updated by the engine — are
exactly the ones passed in. -/
theorem stitch_failure_preserves_operands
    (central right left : Fragment) (circuits : List Fragment) (c : Compiler)
    (e : TranspileError) :
    ((transpile_right_run central right c).2 = (central, right)) ∧
    (transpile_right central right c = .error e →
      (transpile_right central right c).toOption = none) ∧
    ((transpile_left_run central left c).2 = (central, left)) ∧
    (transpile_left central left c = .error e →
      (transpile_left central left c).toOption = none) ∧
    ((transpile_chain_run circuits c).2 = circuits) ∧
    (transpile_chain circuits c = .error e →
      (transpile_chain circuits c).toOption = none) := by
  refine ⟨rfl, ?_, rfl, ?_, rfl, ?_⟩ <;> intro h <;> rw [h] <;> rfl

/-- C7 witness: concrete failing right-, left- and chain-stitches leave
their operands untouched and deliver no composite. -/
theorem stitch_failure_preserves_operands_witness :
    ((transpile_right_run ⟨2, [], none⟩ ⟨3, [], none⟩ strictCompiler).2
      = (⟨2, [], none⟩, ⟨3, [], none⟩)) ∧
    ((transpile_right ⟨2, [], none⟩ ⟨3, [], none⟩ strictCompiler).toOption = none) ∧
    ((transpile_left_run ⟨3, [], none⟩ frMeas cFail).2 = (⟨3, [], none⟩, frMeas)) ∧
    ((transpile_left ⟨3, [], none⟩ frMeas cFail).toOption = none) ∧
    ((transpile_chain_run [] cFail).2 = []) ∧
    ((transpile_chain [] cFail).toOption = none) := by
  have h := stitch_failure_preserves_operands ⟨2, [], none⟩ ⟨3, [], none⟩ frMeas []
    strictCompiler .dimensionMismatch
  have h2 := stitch_failure_preserves_operands ⟨3, [], none⟩ ⟨3, [], none⟩ frMeas []
    cFail .nonInvertibleOperation
  have h3 := stitch_failure_preserves_operands ⟨3, [], none⟩ ⟨3, [], none⟩ frMeas []
    cFail .emptyChain
  exact ⟨h.1, h.2.1 (by rfl), h2.2.2.1, h2.2.2.2.1 (by rfl),
    h3.2.2.2.2.1, h3.2.2.2.2.2 (by rfl)⟩

/-! Minimum and maximum of nonempty lists, and layer bookkeeping. -/

/-- A left fold with `min` stays below its accumulator. -/
theorem foldl_min_le_init : ∀ (xs : List Nat) (a : Nat), xs.foldl min a ≤ a := by
  intro xs
  induction xs with
  | nil => intro a; exact Nat.le_refl a
  | cons x t ih =>
    intro a
    exact Nat.le_trans (ih (min a x)) (Nat.min_le_left a x)

/-- A left fold with `min` stays below every list member. -/
theorem foldl_min_le_mem : ∀ (xs : List Nat) (a x : Nat), x ∈ xs → xs.foldl min a ≤ x := by
  intro xs
  induction xs with
  | nil => intro a x hx; exact absurd hx (List.not_mem_nil x)
  | cons y t ih =>
    intro a x hx
    rcases List.mem_cons.mp hx with h | h
    · subst h
      exact Nat.le_trans (foldl_min_le_init t (min a x)) (Nat.min_le_right a x)
    · exact ih (min a y) x h

/-- A left fold with `min` lands on the accumulator or a member. -/
theorem foldl_min_mem : ∀ (xs : List Nat) (a : Nat), xs.foldl min a = a ∨ xs.foldl min a ∈ xs := by
  intro xs
  induction xs with
  | nil => intro a; exact Or.inl rfl
  | cons y t ih =>
    intro a
    rcases ih (min a y) with h | h
    · rcases Nat.le_total a y with hay | hya
      · rw [List.foldl_cons, h, Nat.min_eq_left hay]
        exact Or.inl rfl
      · rw [List.foldl_cons, h, Nat.min_eq_right hya]
        exact Or.inr (by simp)
    · exact Or.inr (by simp [List.foldl_cons, h])

/-- A left fold with `max` stays above its accumulator. -/
theorem le_foldl_max_init : ∀ (xs : List Nat) (a : Nat), a ≤ xs.foldl max a := by
  intro xs
  induction xs with
  | nil => intro a; exact Nat.le_refl a
  | cons x t ih =>
    intro a
    exact Nat.le_trans (Nat.le_max_left a x) (ih (max a x))

/-- A left fold with `max` stays above every list member. -/
theorem le_foldl_max_mem : ∀ (xs : List Nat) (a x : Nat), x ∈ xs → x ≤ xs.foldl max a := by
  intro xs
  induction xs with
  | nil => intro a x hx; exact absurd hx (List.not_mem_nil x)
  | cons y t ih =>
    intro a x hx
    rcases List.mem_cons.mp hx with h | h
    · subst h
      exact Nat.le_trans (Nat.le_max_right a x) (le_foldl_max_init t (max a x))
    · exact ih (max a y) x h

/-- A left fold with `max` lands on the accumulator or a member. -/
theorem foldl_max_mem : ∀ (xs : List Nat) (a : Nat), xs.foldl max a = a ∨ xs.foldl max a ∈ xs := by
  intro xs
  induction xs with
  | nil => intro a; exact Or.inl rfl
  | cons y t ih =>
    intro a
    rcases ih (max a y) with h | h
    · rcases Nat.le_total a y with hay | hya
      · rw [List.foldl_cons, h, Nat.max_eq_right hay]
        exact Or.inr (by simp)
      · rw [List.foldl_cons, h, Nat.max_eq_left hya]
        exact Or.inl rfl
    · exact Or.inr (by simp [List.foldl_cons, h])

/-- Python `min` of a nonempty list is a member. -/
theorem pymin_mem {l : List Nat} (h : l ≠ []) : pymin l ∈ l := by
  cases l with
  | nil => exact absurd rfl h
  | cons x t =>
    rcases foldl_min_mem t x with h1 | h1
    · simp [pymin, h1]
    · simp [pymin, List.mem_cons, Or.inr h1]

/-- Python `min` of a list bounds every member from below. -/
theorem pymin_le {l : List Nat} {x : Nat} (hx : x ∈ l) : pymin l ≤ x := by
  cases l with
  | nil => exact absurd hx (List.not_mem_nil x)
  | cons y t =>
    rcases List.mem_cons.mp hx with h | h
    · subst h
      exact foldl_min_le_init t x
    · exact foldl_min_le_mem t y x h

/-- Python `max` of a nonempty list is a member. -/
theorem pymax_mem {l : List Nat} (h : l ≠ []) : pymax l ∈ l := by
  cases l with
  | nil => exact absurd rfl h
  | cons x t =>
    rcases foldl_max_mem t x with h1 | h1
    · simp [pymax, h1]
    · simp [pymax, List.mem_cons, Or.inr h1]

/-- Python `max` of a list bounds every member from above. -/
theorem le_pymax {l : List Nat} {x : Nat} (hx : x ∈ l) : x ≤ pymax l := by
  cases l with
  | nil => exact absurd hx (List.not_mem_nil x)
  | cons y t =>
    rcases List.mem_cons.mp hx with h | h
    · subst h
      exact le_foldl_max_init t x
    · exact le_foldl_max_mem t y x h

/-- Appending an element inside one block of a block list permutes with
appending it at the end. -/
theorem flatten_set_append_perm {α : Type} (a : α) :
    ∀ (L : List (List α)) (l : Nat), l < L.length →
      (L.set l (L.getD l [] ++ [a])).flatten.Perm (L.flatten ++ [a]) := by
  intro L
  induction L with
  | nil => intro l hl; exact absurd hl (by simp)
  | cons x t ih =>
    intro l hl
    cases l with
    | zero =>
      simp only [List.set_cons_zero, List.getD_cons_zero, List.flatten_cons]
      rw [List.append_assoc x [a] t.flatten, List.append_assoc x t.flatten [a]]
      exact List.Perm.append_left x List.perm_append_comm
    | succ l =>
      have hlt : l < t.length := by simpa using hl
      simp only [List.set_cons_succ, List.getD_cons_succ, List.flatten_cons]
      rw [List.append_assoc x t.flatten [a]]
      exact List.Perm.append_left x (ih l hlt)

/-- One layering step appends the operation to some block, up to a
permutation that moves it to the end. -/
theorem layerStep_flatten_perm (st : List (List Op) × List Nat) (op : Op) :
    (layerStep st op).1.flatten.Perm (st.1.flatten ++ [op]) := by
  unfold layerStep
  by_cases h : opLayer st.2 op < st.1.length
  · simp only [if_pos h]
    exact flatten_set_append_perm op st.1 (opLayer st.2 op) h
  · simp only [if_neg h]
    rw [List.flatten_append]
    simp

/-- Folding the layering step accumulates all operations, up to
permutation. -/
theorem foldl_layerStep_flatten_perm :
    ∀ (ops : List Op) (st : List (List Op) × List Nat),
      ((ops.foldl layerStep st).1).flatten.Perm (st.1.flatten ++ ops) := by
  intro ops
  induction ops with
  | nil => intro st; simp
  | cons op rest ih =>
    intro st
    rw [List.foldl_cons]
    have h1 := ih (layerStep st op)
    have h2 : ((layerStep st op).1.flatten ++ rest).Perm ((st.1.flatten ++ [op]) ++ rest) :=
      List.Perm.append_right rest (layerStep_flatten_perm st op)
    have h3 : (st.1.flatten ++ [op]) ++ rest = st.1.flatten ++ (op :: rest) := by
      rw [List.append_assoc]
      rfl
    exact h1.trans (h3 ▸ h2)

/-- The DAG layers of a fragment hold exactly its operations, reordered. -/
theorem circuitLayers_flatten_perm (f : Fragment) :
    (circuitLayers f).flatten.Perm f.ops := by
  unfold circuitLayers
  have h := foldl_layerStep_flatten_perm f.ops ([], List.replicate f.numQubits 0)
  simpa using h

/-- Membership in the parameterized-layer index list. -/
theorem mem_parametrizedLayerIndices {layers : List (List Op)} {j : Nat} :
    j ∈ parametrizedLayerIndices layers
      ↔ j < layers.length ∧ (layers.getD j []).any (fun op => op.parameterized) = true := by
  unfold parametrizedLayerIndices
  rw [List.mem_filter, List.mem_range]

/-- A layer whose index is not marked parameterized contains no
parameterized operation. -/
theorem layer_no_param {layers : List (List Op)} {j : Nat} (hj : j < layers.length)
    (hnotin : j ∉ parametrizedLayerIndices layers) :
    ∀ op ∈ layers.getD j [], op.parameterized = false := by
  intro op hop
  cases hq : op.parameterized with
  | false => rfl
  | true =>
    exact absurd
      (mem_parametrizedLayerIndices.mpr ⟨hj, List.any_eq_true.mpr ⟨op, hop, hq⟩⟩) hnotin

/-- An operation of a block taken from the front of the layer list lies in
a layer with index below the cut. -/
theorem mem_flatten_take {layers : List (List Op)} {k : Nat} {op : Op}
    (h : op ∈ (layers.take k).flatten) :
    ∃ j, j < k ∧ j < layers.length ∧ op ∈ layers.getD j [] := by
  obtain ⟨lay, hlay, hop⟩ := List.mem_flatten.mp h
  obtain ⟨j, hj, hget⟩ := List.mem_iff_getElem.mp hlay
  have hjk : j < k := by
    have := hj
    rw [List.length_take] at this
    exact Nat.lt_of_lt_of_le this (Nat.min_le_left _ _)
  have hjl : j < layers.length := by
    have := hj
    rw [List.length_take] at this
    exact Nat.lt_of_lt_of_le this (Nat.min_le_right _ _)
  refine ⟨j, hjk, hjl, ?_⟩
  rw [List.getD_eq_getElem _ _ hjl]
  rw [List.getElem_take] at hget
  rw [hget]
  exact hop

/-- An operation of a block dropped from the layer list lies in a layer
with index at or beyond the cut. -/
theorem mem_flatten_drop {layers : List (List Op)} {k : Nat} {op : Op}
    (h : op ∈ (layers.drop k).flatten) :
    ∃ j, k ≤ j ∧ j < layers.length ∧ op ∈ layers.getD j [] := by
  obtain ⟨lay, hlay, hop⟩ := List.mem_flatten.mp h
  obtain ⟨j, hj, hget⟩ := List.mem_iff_getElem.mp hlay
  have hjl : k + j < layers.length := by
    have := hj
    rw [List.length_drop] at this
    omega
  refine ⟨k + j, Nat.le_add_right k j, hjl, ?_⟩
  rw [List.getD_eq_getElem _ _ hjl]
  rw [List.getElem_drop] at hget
  rw [hget]
  exact hop

/-- Python `min` of a singleton. -/
theorem pymin_singleton (x : Nat) : pymin [x] = x := rfl

/-- Python `max` of a singleton. -/
theorem pymax_singleton (x : Nat) : pymax [x] = x := rfl

/-- C8 amended: `split_parametrized_circuit` splits at DAG-layer
granularity — the three parts concatenate to the layered operation
sequence (a permutation of the original), the left and right parts contain
no parameterized operation, every parameterized operation lands in the
middle, the middle window is minimal at layer granularity (its first and
last layers are parameterized), and with no parameterized operation the
middle and right parts are empty and the left part is the whole layered
sequence. -/
theorem split_parametrized_circuit_layers (f : Fragment) :
    ((split_parametrized_circuit f).1.ops ++ ((split_parametrized_circuit f).2.1.ops
        ++ (split_parametrized_circuit f).2.2.ops) = (circuitLayers f).flatten) ∧
    (circuitLayers f).flatten.Perm f.ops ∧
    (∀ op ∈ (split_parametrized_circuit f).1.ops, op.parameterized = false) ∧
    (∀ op ∈ (split_parametrized_circuit f).2.2.ops, op.parameterized = false) ∧
    (∀ op ∈ f.ops, op.parameterized = true → op ∈ (split_parametrized_circuit f).2.1.ops) ∧
    (parametrizedLayerIndices (circuitLayers f) = [] →
      (split_parametrized_circuit f).2.1.ops = [] ∧
      (split_parametrized_circuit f).2.2.ops = [] ∧
      (split_parametrized_circuit f).1.ops = (circuitLayers f).flatten) ∧
    (parametrizedLayerIndices (circuitLayers f) ≠ [] →
      pymin (parametrizedLayerIndices (circuitLayers f)) ∈
        parametrizedLayerIndices (circuitLayers f) ∧
      pymax (parametrizedLayerIndices (circuitLayers f)) ∈
        parametrizedLayerIndices (circuitLayers f)) := by
  by_cases hcase : parametrizedLayerIndices (circuitLayers f) = []
  · have hE : (parametrizedLayerIndices (circuitLayers f)).isEmpty = true := by
      rw [List.isEmpty_iff]
      exact hcase
    have h1 : (split_parametrized_circuit f).1.ops = (circuitLayers f).flatten := by
      simp only [split_parametrized_circuit, hE, if_true, pymin_singleton]
      rw [List.take_of_length_le (Nat.le_refl _)]
    have h2 : (split_parametrized_circuit f).2.1.ops = [] := by
      simp only [split_parametrized_circuit, hE, if_true, pymin_singleton, pymax_singleton]
      rw [List.take_of_length_le (Nat.le_succ_of_le (Nat.le_refl _))]
      rw [List.drop_eq_nil_of_le (Nat.le_refl _)]
      rfl
    have h3 : (split_parametrized_circuit f).2.2.ops = [] := by
      simp only [split_parametrized_circuit, hE, if_true, pymax_singleton]
      rw [List.drop_eq_nil_of_le (Nat.le_succ_of_le (Nat.le_refl _))]
      rfl
    have hallfalse : ∀ op ∈ (circuitLayers f).flatten, op.parameterized = false := by
      intro op hop
      obtain ⟨lay, hlay, hoplay⟩ := List.mem_flatten.mp hop
      obtain ⟨j, hj, hget⟩ := List.mem_iff_getElem.mp hlay
      refine layer_no_param hj (by rw [hcase]; exact List.not_mem_nil j) op ?_
      rw [List.getD_eq_getElem _ _ hj, hget]
      exact hoplay
    refine ⟨?_, circuitLayers_flatten_perm f, ?_, ?_, ?_, ?_, ?_⟩
    · rw [h1, h2, h3]
      simp
    · intro op hop
      rw [h1] at hop
      exact hallfalse op hop
    · intro op hop
      rw [h3] at hop
      exact absurd hop (List.not_mem_nil op)
    · intro op hop hparam
      have hmem : op ∈ (circuitLayers f).flatten :=
        (circuitLayers_flatten_perm f).mem_iff.mpr hop
      have := hallfalse op hmem
      rw [hparam] at this
      exact absurd this (by simp)
    · intro _
      exact ⟨h2, h3, h1⟩
    · intro h
      exact absurd hcase h
  · have hE : (parametrizedLayerIndices (circuitLayers f)).isEmpty = false := by
      cases hq : (parametrizedLayerIndices (circuitLayers f)).isEmpty
      · rfl
      · exact absurd (List.isEmpty_iff.mp hq) hcase
    have hfirstmem := pymin_mem hcase
    have hlastmem := pymax_mem hcase
    have hfl : pymin (parametrizedLayerIndices (circuitLayers f))
        ≤ pymax (parametrizedLayerIndices (circuitLayers f)) := pymin_le hlastmem
    have hfirstlen := (mem_parametrizedLayerIndices.mp hfirstmem).1
    have hlastlen := (mem_parametrizedLayerIndices.mp hlastmem).1
    have h1 : (split_parametrized_circuit f).1.ops
        = ((circuitLayers f).take (pymin (parametrizedLayerIndices (circuitLayers f)))).flatten := by
      simp only [split_parametrized_circuit, hE, Bool.false_eq_true, if_false]
    have h2 : (split_parametrized_circuit f).2.1.ops
        = (((circuitLayers f).take (pymax (parametrizedLayerIndices (circuitLayers f)) + 1)).drop
            (pymin (parametrizedLayerIndices (circuitLayers f)))).flatten := by
      simp only [split_parametrized_circuit, hE, Bool.false_eq_true, if_false]
    have h3 : (split_parametrized_circuit f).2.2.ops
        = ((circuitLayers f).drop (pymax (parametrizedLayerIndices (circuitLayers f)) + 1)).flatten := by
      simp only [split_parametrized_circuit, hE, Bool.false_eq_true, if_false]
    have key : (circuitLayers f).take (pymin (parametrizedLayerIndices (circuitLayers f)))
        ++ (((circuitLayers f).take (pymax (parametrizedLayerIndices (circuitLayers f)) + 1)).drop
              (pymin (parametrizedLayerIndices (circuitLayers f)))
            ++ (circuitLayers f).drop (pymax (parametrizedLayerIndices (circuitLayers f)) + 1))
        = circuitLayers f := by
      have htt : ((circuitLayers f).take (pymax (parametrizedLayerIndices (circuitLayers f)) + 1)).take
          (pymin (parametrizedLayerIndices (circuitLayers f)))
          = (circuitLayers f).take (pymin (parametrizedLayerIndices (circuitLayers f))) := by
        rw [List.take_take, Nat.min_eq_left (Nat.le_succ_of_le hfl)]
      rw [← htt, ← List.append_assoc, List.take_append_drop, List.take_append_drop]
    refine ⟨?_, circuitLayers_flatten_perm f, ?_, ?_, ?_, ?_, ?_⟩
    · rw [h1, h2, h3, ← List.flatten_append, ← List.flatten_append, key]
    · intro op hop
      rw [h1] at hop
      obtain ⟨j, hjk, hjl, hj⟩ := mem_flatten_take hop
      refine layer_no_param hjl ?_ op hj
      intro hmem
      exact absurd (pymin_le hmem) (Nat.not_le_of_lt hjk)
    · intro op hop
      rw [h3] at hop
      obtain ⟨j, hjk, hjl, hj⟩ := mem_flatten_drop hop
      refine layer_no_param hjl ?_ op hj
      intro hmem
      exact absurd (le_pymax hmem) (Nat.not_le_of_lt hjk)
    · intro op hop hparam
      have hmem : op ∈ (circuitLayers f).flatten :=
        (circuitLayers_flatten_perm f).mem_iff.mpr hop
      obtain ⟨lay, hlay, hoplay⟩ := List.mem_flatten.mp hmem
      obtain ⟨i, hi, hget⟩ := List.mem_iff_getElem.mp hlay
      have hopD : op ∈ (circuitLayers f).getD i [] := by
        rw [List.getD_eq_getElem _ _ hi, hget]
        exact hoplay
      have hpred : i ∈ parametrizedLayerIndices (circuitLayers f) :=
        mem_parametrizedLayerIndices.mpr ⟨hi, List.any_eq_true.mpr ⟨op, hopD, hparam⟩⟩
      have hif := pymin_le hpred
      have hil := le_pymax hpred
      rw [h2]
      apply List.mem_flatten.mpr
      refine ⟨(circuitLayers f).getD i [], ?_, hopD⟩
      apply List.mem_iff_getElem.mpr
      have hlen1 : (((circuitLayers f).take (pymax (parametrizedLayerIndices (circuitLayers f)) + 1)).drop
          (pymin (parametrizedLayerIndices (circuitLayers f)))).length
          = min (pymax (parametrizedLayerIndices (circuitLayers f)) + 1) (circuitLayers f).length
            - pymin (parametrizedLayerIndices (circuitLayers f)) := by
        rw [List.length_drop, List.length_take]
      refine ⟨i - pymin (parametrizedLayerIndices (circuitLayers f)), ?_, ?_⟩
      · rw [hlen1]
        omega
      · rw [List.getElem_drop]
        have hidx : pymin (parametrizedLayerIndices (circuitLayers f))
            + (i - pymin (parametrizedLayerIndices (circuitLayers f))) = i := by omega
        simp only [hidx]
        rw [List.getElem_take]
        rw [List.getD_eq_getElem _ _ hi]
    · intro h
      exact absurd h hcase
    · intro _
      exact ⟨hfirstmem, hlastmem⟩

/-- C8 counterexample: on a fragment whose first DAG layer holds both a
non-parameterized operation on one qubit and the only parameterized
operation on another, the code's split differs from the operation-level
minimal-window split stated by the claim — the code's left part is empty
and its middle holds a non-parameterized operation that precedes the first
parameterized one. -/
theorem split_claim_counterexample :
    split_parametrized_circuit fragSplit ≠ split_spec fragSplit ∧
    (split_parametrized_circuit fragSplit).1.ops = [] ∧
    (split_parametrized_circuit fragSplit).2.1.ops = [opH0, opRX] ∧
    (split_spec fragSplit).1.ops = [opH0] ∧
    (split_spec fragSplit).2.1.ops = [opRX] := by
  decide

/-- C8 witness: the amended statement applied to the concrete fragment. -/
theorem split_parametrized_circuit_layers_witness :
    ((split_parametrized_circuit fragSplit).1.ops
        ++ ((split_parametrized_circuit fragSplit).2.1.ops
          ++ (split_parametrized_circuit fragSplit).2.2.ops)
      = (circuitLayers fragSplit).flatten) ∧
    opRX ∈ fragSplit.ops ∧ opRX.parameterized = true ∧
    opRX ∈ (split_parametrized_circuit fragSplit).2.1.ops := by
  refine ⟨(split_parametrized_circuit_layers fragSplit).1, by decide, by decide, ?_⟩
  exact (split_parametrized_circuit_layers fragSplit).2.2.2.2.1 opRX (by decide) (by decide)

/-- Length of the routing list read from a layout. -/
theorem routingOf_length (n : Nat) (L : TLayout) : (routingOf n L).length = n := by
  unfold routingOf
  cases L.finalRouting <;> simp

/-- On a well-formed layout the read routing list is the stored one. -/
theorem routingOf_eq_routeListOf {n : Nat} {L : TLayout}
    (h : PermOn n (routeListOf n L.finalRouting)) :
    routingOf n L = routeListOf n L.finalRouting := by
  unfold routingOf routeListOf
  cases hfr : L.finalRouting with
  | none => rfl
  | some fl =>
    have hfl : PermOn n fl := by
      rw [hfr] at h
      exact h
    exact map_getD_range_eq (permOn_length hfl) 0

/-- The read routing list of a well-formed layout is a permutation. -/
theorem permOn_routingOf {n : Nat} {L : TLayout}
    (h : PermOn n (routeListOf n L.finalRouting)) : PermOn n (routingOf n L) := by
  rw [routingOf_eq_routeListOf h]
  exact h

/-- Reading a mapped list inside its bounds. -/
theorem getD_map_lt {α β : Type} (g : α → β) {l : List α} {p : Nat} (hp : p < l.length)
    (d : β) (d0 : α) : (l.map g).getD p d = g (l.getD p d0) := by
  rw [List.getD_eq_getElem _ _ (by simpa using hp), List.getElem_map,
    List.getD_eq_getElem _ _ hp]

/-- Success shape of `transpile_right` when both operands carry layouts:
the composite keeps the central placement and composes the routings. -/
theorem transpile_right_ok
    (central right rightT : Fragment) (c : Compiler) (Lc Lr : TLayout) (fm : List Nat)
    (hc : central.layout = some Lc)
    (hfm : get_full_map central.numQubits central.layout = some fm)
    (hrun : c right (some (fm.take right.numQubits)) = .ok rightT)
    (hr : rightT.layout = some Lr)
    (hcomp : rightT.numQubits ≤ central.numQubits) :
    transpile_right central right c
      = .ok ⟨central.numQubits, central.ops ++ rightT.ops,
          some ⟨Lc.inputQubitMapping, Lc.initialPhysToVirt,
            some ((routingOf central.numQubits Lc).map
              (fun q => (routingOf rightT.numQubits Lr).getD q 0))⟩⟩ := by
  unfold transpile_right
  rw [hfm]
  simp only [toE, exBind_ok]
  rw [hrun]
  simp only [exBind_ok, composeFragments, if_neg (Nat.not_lt.mpr hcomp), hr, hc, exPure]

/-- C2: when both operands carry layouts, the composite keeps the central
placement, composes the routings as `route'[p] = right.route[central.route[p]]`
(positions whose image is outside the right fragment's coverage keep
`central.route[p]` whenever the right routing is the identity off its
coverage), and its full map is the one derived from `(place', route')`. -/
theorem stitch_right_layout_composition
    (central right rightT : Fragment) (c : Compiler) (Lc Lr : TLayout) (fm : List Nat)
    (hc : central.layout = some Lc)
    (hfm : get_full_map central.numQubits central.layout = some fm)
    (hrun : c right (some (fm.take right.numQubits)) = .ok rightT)
    (hr : rightT.layout = some Lr)
    (hcomp : rightT.numQubits ≤ central.numQubits) :
    ∃ fr, transpile_right central right c
        = .ok ⟨central.numQubits, central.ops ++ rightT.ops,
            some ⟨Lc.inputQubitMapping, Lc.initialPhysToVirt, some fr⟩⟩ ∧
      fr = (routingOf central.numQubits Lc).map
        (fun q => (routingOf rightT.numQubits Lr).getD q 0) ∧
      (∀ p, p < central.numQubits →
        fr.getD p 0 = (routingOf rightT.numQubits Lr).getD
          ((routingOf central.numQubits Lc).getD p 0) 0) ∧
      (∀ (Covered : Nat → Prop),
        (∀ q, ¬Covered q → (routingOf rightT.numQubits Lr).getD q 0 = q) →
        ∀ p, p < central.numQubits → ¬Covered ((routingOf central.numQubits Lc).getD p 0) →
          fr.getD p 0 = (routingOf central.numQubits Lc).getD p 0) ∧
      (central.numQubits = rightT.numQubits →
        Lc.inputQubitMapping = List.range central.numQubits →
        PermOn central.numQubits Lc.initialPhysToVirt →
        PermOn central.numQubits (routeListOf central.numQubits Lc.finalRouting) →
        PermOn rightT.numQubits (routeListOf rightT.numQubits Lr.finalRouting) →
        get_full_map central.numQubits
            (some ⟨Lc.inputQubitMapping, Lc.initialPhysToVirt, some fr⟩)
          = some ((List.range central.numQubits).map
              (fun v => fr.getD (List.indexOf v Lc.initialPhysToVirt) 0))) := by
  refine ⟨(routingOf central.numQubits Lc).map
    (fun q => (routingOf rightT.numQubits Lr).getD q 0), ?_, rfl, ?_, ?_, ?_⟩
  · exact transpile_right_ok central right rightT c Lc Lr fm hc hfm hrun hr hcomp
  · intro p hp
    exact getD_map_lt _ (by rw [routingOf_length]; exact hp) 0 0
  · intro Covered hid p hp hout
    rw [getD_map_lt _ (by rw [routingOf_length]; exact hp) 0 0]
    exact hid _ hout
  · intro hD him hpv hcr hrr
    have hcrp : PermOn central.numQubits (routingOf central.numQubits Lc) :=
      permOn_routingOf hcr
    have hrrp : PermOn central.numQubits (routingOf rightT.numQubits Lr) := by
      rw [← hD] at hrr ⊢
      exact permOn_routingOf hrr
    have hfrp : PermOn central.numQubits ((routingOf central.numQubits Lc).map
        (fun q => (routingOf rightT.numQubits Lr).getD q 0)) :=
      permOn_map_comp hcrp hrrp
    exact get_full_map_formula central.numQubits
      ⟨Lc.inputQubitMapping, Lc.initialPhysToVirt,
        some ((routingOf central.numQubits Lc).map
          (fun q => (routingOf rightT.numQubits Lr).getD q 0))⟩
      him hpv hfrp

/-- C2 witness: stitching the one-qubit fragment after the routed
three-qubit fragment composes the routings to `[1,2,0]` and the recomputed
full map is `[1,2,0]`. -/
theorem stitch_right_layout_composition_witness :
    transpile_right tA frB cexCompiler
      = .ok ⟨3, tA.ops ++ tB.ops, some ⟨[0, 1, 2], [0, 1, 2], some [1, 2, 0]⟩⟩ ∧
    get_full_map 3 (some ⟨[0, 1, 2], [0, 1, 2], some [1, 2, 0]⟩) = some [1, 2, 0] := by
  obtain ⟨fr, h1, h2, h3, h4, h5⟩ := stitch_right_layout_composition tA frB tB cexCompiler
    layA layB [1, 2, 0] rfl (by decide) (by rfl) rfl (by decide)
  have hfr : fr = [1, 2, 0] := by
    rw [h2]
    decide
  constructor
  · rw [h1, hfr]
    rfl
  · have h5' := h5 rfl (by decide) (by decide) (by decide) (by decide)
    rw [hfr] at h5'
    exact h5'.trans (by decide)

/-- Zipping the position range with an equally long list enumerates its
reads. -/
theorem zip_range_getD {l : List Nat} {n : Nat} (hlen : l.length = n) :
    (List.range n).zip l = (List.range n).map (fun i => (i, l.getD i 0)) := by
  apply List.ext_getElem (by simp [hlen])
  intro i h1 h2
  have hil : i < l.length := by
    rw [hlen]
    simpa using h2
  rw [List.getElem_zip, List.getElem_map, List.getElem_range,
    List.getD_eq_getElem _ _ hil]

/-- Reversing a fragment keeps its qubit count. -/
theorem reverseFragment_numQubits {f g : Fragment} (h : reverseFragment f = .ok g) :
    g.numQubits = f.numQubits := by
  unfold reverseFragment at h
  cases hs : seqOption inverseOp f.ops.reverse with
  | none =>
    rw [hs] at h
    exact absurd h (by simp)
  | some ops2 =>
    rw [hs] at h
    simp only [Except.ok.injEq] at h
    rw [← h]

/-- C3: when the reversed-and-compiled left fragment carries a layout, the
composite prepends its operations, takes the full map of the reversed
compiled fragment as entry placement, and composes the routings opposite
to the right stitch: `route'[p] = central.route[left.route[p]]`. -/
theorem stitch_left_layout_composition
    (central left inverted revT tl0 : Fragment) (c : Compiler) (Lr : TLayout) (im : List Nat)
    (hrevL : reverseFragment left = .ok inverted)
    (hrun : c inverted (some (left_initial_layout central left)) = .ok revT)
    (hrevT : reverseFragment revT = .ok tl0)
    (hr : revT.layout = some Lr)
    (hcomp : revT.numQubits ≤ central.numQubits)
    (hfm : get_full_map revT.numQubits (some Lr) = some im) :
    ∃ patched frl,
      transpile_left central left c
        = .ok ⟨central.numQubits, tl0.ops ++ central.ops,
            some ⟨Lr.inputQubitMapping, patched, some frl⟩⟩ ∧
      frl = (routingOf revT.numQubits Lr).map (fun q => (centralRoutingOf central).getD q 0) ∧
      patched = (Lr.inputQubitMapping.zip im).foldl (fun pv vp => pv.set vp.2 vp.1)
        Lr.initialPhysToVirt ∧
      (∀ p, p < revT.numQubits →
        frl.getD p 0
          = (centralRoutingOf central).getD ((routingOf revT.numQubits Lr).getD p 0) 0) ∧
      (Lr.inputQubitMapping = List.range revT.numQubits →
        PermOn revT.numQubits Lr.initialPhysToVirt →
        PermOn revT.numQubits im →
        ∀ v, v < revT.numQubits → List.indexOf v patched = im.getD v 0) := by
  have htl0n : tl0.numQubits = revT.numQubits := reverseFragment_numQubits hrevT
  refine ⟨(Lr.inputQubitMapping.zip im).foldl (fun pv vp => pv.set vp.2 vp.1)
      Lr.initialPhysToVirt,
    (routingOf revT.numQubits Lr).map (fun q => (centralRoutingOf central).getD q 0),
    ?_, rfl, rfl, ?_, ?_⟩
  · unfold transpile_left
    rw [hrevL]
    simp only [exBind_ok]
    rw [hrun]
    simp only [exBind_ok]
    rw [hrevT]
    simp only [exBind_ok, composeFront, htl0n, if_neg (Nat.not_lt.mpr hcomp), hr, exBind_ok]
    simp only [centralRoutingOf, htl0n, hfm, toE, exBind_ok, exPure]
  · intro p hp
    exact getD_map_lt _ (by rw [routingOf_length]; exact hp) 0 0
  · intro him hpv himp
    have himlen : im.length = revT.numQubits := permOn_length himp
    have hfold : (Lr.inputQubitMapping.zip im).foldl (fun pv vp => pv.set vp.2 vp.1)
        Lr.initialPhysToVirt
        = (List.range revT.numQubits).foldl
            (fun pv i => pv.set (im.getD i 0) i) Lr.initialPhysToVirt := by
      rw [him, zip_range_getD himlen, List.foldl_map]
    have hclosed : ∀ p, p < revT.numQubits →
        ((Lr.inputQubitMapping.zip im).foldl (fun pv vp => pv.set vp.2 vp.1)
          Lr.initialPhysToVirt).getD p 0 = List.indexOf p im := by
      intro p hp
      rw [hfold]
      rw [foldl_set_closed 0 revT.numQubits (fun i => im.getD i 0)
        (fun q => List.indexOf q im)
        (fun i hiD => permOn_indexOf_getD himp hiD) (fun i => i)
        revT.numQubits (Nat.le_refl _) Lr.initialPhysToVirt (permOn_length hpv) p hp]
      rw [if_pos ⟨permOn_getD_indexOf himp hp, permOn_indexOf_lt himp hp⟩]
    have hpatched_eq : (Lr.inputQubitMapping.zip im).foldl (fun pv vp => pv.set vp.2 vp.1)
        Lr.initialPhysToVirt
        = (List.range revT.numQubits).map (fun q => List.indexOf q im) := by
      apply List.ext_getElem
      · rw [hfold, length_foldl_set (fun i => im.getD i 0) (fun i => i)]
        rw [permOn_length hpv]
        simp
      · intro i h1 h2
        have hiD : i < revT.numQubits := by simpa using h2
        have hl1 : ((Lr.inputQubitMapping.zip im).foldl (fun pv vp => pv.set vp.2 vp.1)
            Lr.initialPhysToVirt).getD i 0 = List.indexOf i im := hclosed i hiD
        rw [List.getD_eq_getElem _ _ h1] at hl1
        rw [hl1, List.getElem_map, List.getElem_range]
    intro v hv
    have hperm : PermOn revT.numQubits ((List.range revT.numQubits).map
        (fun q => List.indexOf q im)) := permOn_inv_map himp
    rw [hpatched_eq]
    apply permOn_indexOf_eq hperm (permOn_getD_lt himp hv)
    rw [getD_map_range _ (permOn_getD_lt himp hv)]
    exact permOn_indexOf_getD himp hv

/-- C3 witness: left-stitching a one-operation fragment before a bare
two-qubit circuit takes the reversed compiled fragment's full map `[1,0]`
as entry placement and composes the routings into the identity. -/
theorem stitch_left_layout_composition_witness :
    transpile_left ⟨2, [], none⟩ frL leftCompiler
      = .ok ⟨2, [⟨8, [0], true, false, true⟩], some ⟨[0, 1], [1, 0], some [0, 1]⟩⟩ := by
  obtain ⟨patched, frl, h1, h2, h3, h4, h5⟩ := stitch_left_layout_composition
    ⟨2, [], none⟩ frL frLrev tLrev ⟨2, [⟨8, [0], true, false, true⟩], none⟩ leftCompiler
    layLrev [1, 0] rfl (by rfl) rfl rfl (by decide) (by decide)
  have hpatch : patched = [1, 0] := by
    rw [h3]
    decide
  have hfrl : frl = [0, 1] := by
    rw [h2]
    decide
  rw [h1, hpatch, hfrl]
  rfl

/-- Reading a front segment inside its bounds. -/
theorem getD_take_lt {l : List Nat} {k v : Nat} (hv : v < k) (hvl : v < l.length) (d : Nat) :
    (l.take k).getD v d = l.getD v d := by
  have h1 : v < (l.take k).length := by
    rw [List.length_take]
    omega
  rw [List.getD_eq_getElem _ _ h1, List.getD_eq_getElem _ _ hvl, List.getElem_take]

/-- Binding a successful computation in `Except.bind` form. -/
theorem exceptBind_ok {ε α β : Type} (a : α) (f : α → Except ε β) :
    (Except.ok a).bind f = f a := rfl

/-- First iteration of the `transpile_chain` loop. -/
theorem chainStep_first (c : Compiler) (A tA : Fragment) (fmA : List Nat)
    (hA : c A none = .ok tA)
    (hfmA : get_full_map tA.numQubits tA.layout = some fmA) :
    chainStep c (none, none, none) A = .ok (some fmA, some tA, some tA) := by
  unfold chainStep
  simp only [Option.map]
  rw [hA]
  simp only [exBind_ok]
  rw [hfmA]
  simp only [toE, exBind_ok, exPure]

/-- Later iterations of the `transpile_chain` loop. -/
theorem chainStep_ok (c : Compiler) (circuit t ch prev : Fragment) (fmPrev fmT : List Nat)
    (hrun : c circuit (some (fmPrev.take circuit.numQubits)) = .ok t)
    (hfmT : get_full_map t.numQubits t.layout = some fmT)
    (hno : ¬ch.numQubits < t.numQubits) :
    chainStep c (some fmPrev, some ch, some prev) circuit
      = .ok (some fmT, some ⟨ch.numQubits, ch.ops ++ t.ops, ch.layout⟩, some t) := by
  unfold chainStep
  simp only [Option.map]
  rw [hrun]
  simp only [exBind_ok, composeFragments, if_neg hno]
  rw [hfmT]
  simp only [toE, exBind_ok, exPure]

/-- Execution of `transpile_chain` on three circuits from its step
results. -/
theorem transpile_chain_three (c : Compiler) (A B C : Fragment)
    (s1 s2 s3 : Option (List Nat) × Option Fragment × Option Fragment)
    (h1 : chainStep c (none, none, none) A = .ok s1)
    (h2 : chainStep c s1 B = .ok s2)
    (h3 : chainStep c s2 C = .ok s3) :
    transpile_chain [A, B, C] c
      = (match s3.2.1, s3.2.2 with
        | some chain, some t => .ok { chain with layout := t.layout }
        | _, _ => .error .emptyChain) := by
  unfold transpile_chain
  rw [List.foldlM_cons, h1]
  simp only [exBind_ok]
  rw [List.foldlM_cons, h2]
  simp only [exBind_ok]
  rw [List.foldlM_cons, h3]
  simp only [exBind_ok, List.foldlM_nil, exPure]

/-- The table compiler satisfies the device-compiler contract on the
three-qubit device: every output is full width with a well-formed layout
whose placement follows the hint. -/
theorem cexCompiler_wf : CompilerWF 3 cexCompiler := by
  intro f hint t h
  unfold cexCompiler at h
  split_ifs at h with h1 h2 h3 h4
  · obtain ⟨hf, hh⟩ := h1
    simp only [Except.ok.injEq] at h
    subst hf hh h
    refine ⟨rfl, layA, [1, 2, 0], rfl, by decide, by decide, rfl, by decide, ?_⟩
    intro hl hcontra
    exact absurd hcontra (by simp)
  · obtain ⟨hf, hh⟩ := h2
    simp only [Except.ok.injEq] at h
    subst hf hh h
    refine ⟨rfl, layB, [0, 1, 2], rfl, by decide, by decide, rfl, by decide, ?_⟩
    intro hl hcontra v hv1 hv3
    injection hcontra with hcontra
    subst hcontra
    have hv0 : v = 0 := by
      simp at hv1
      omega
    subst hv0
    decide
  · obtain ⟨hf, hh⟩ := h3
    simp only [Except.ok.injEq] at h
    subst hf hh h
    refine ⟨rfl, layC1, [0, 1, 2], rfl, by decide, by decide, rfl, by decide, ?_⟩
    intro hl hcontra v hv1 hv3
    injection hcontra with hcontra
    subst hcontra
    have hv01 : v = 0 ∨ v = 1 := by
      simp at hv1
      omega
    rcases hv01 with hv | hv <;> subst hv <;> decide
  · obtain ⟨hf, hh⟩ := h4
    simp only [Except.ok.injEq] at h
    subst hf hh h
    refine ⟨rfl, layC2, [0, 1, 2], rfl, by decide, by decide, rfl, by decide, ?_⟩
    intro hl hcontra v hv1 hv3
    injection hcontra with hcontra
    subst hcontra
    have hv01 : v = 0 ∨ v = 1 := by
      simp at hv1
      omega
    rcases hv01 with hv | hv <;> subst hv <;> decide

/-- C4 counterexample: with a contract-abiding deterministic compiler and
three concrete fragments whose widths grow (one-qubit `frB` before
two-qubit `frC`), the chain and the nested right-stitches feed different
placement hints to the last fragment's compilation — the chain forwards
only the full map of the last transpiled fragment — and produce different
operation sequences. -/
theorem chain_vs_nested_counterexample :
    cexCompiler frA none = .ok tA ∧
    (transpile_chain [frA, frB, frC] cexCompiler).toOption.map Fragment.ops
      ≠ (transpile_right_twice tA frB frC cexCompiler).toOption.map Fragment.ops ∧
    CompilerWF 3 cexCompiler := by
  exact ⟨rfl, by decide, cexCompiler_wf⟩

/-- C4 amended: with a deterministic compiler satisfying the device
contract (fixed width `D`, well-formed layouts, hint-following placement),
and fragments of non-increasing widths (`C.N` at most `B.N` at most `D`)
so that the forwarded full-map prefixes coincide, `stitch_chain([A,B,C])`
produces the same operation sequence as
`stitch_right(stitch_right(compile(A),B),C)`; with growing widths the
hints can differ and so can the operation sequences (see the
counterexample). -/
theorem chain_matches_nested_right
    (c : Compiler) (D : Nat) (A B C tA tB tC : Fragment) (fmA fmB : List Nat)
    (hwf : CompilerWF D c)
    (hA : c A none = .ok tA)
    (hfmA : get_full_map tA.numQubits tA.layout = some fmA)
    (hB : c B (some (fmA.take B.numQubits)) = .ok tB)
    (hfmB : get_full_map tB.numQubits tB.layout = some fmB)
    (hC : c C (some (fmB.take C.numQubits)) = .ok tC)
    (hBD : B.numQubits ≤ D)
    (hCB : C.numQubits ≤ B.numQubits) :
    ∃ F1 F2, transpile_chain [A, B, C] c = .ok F1 ∧
      transpile_right_twice tA B C c = .ok F2 ∧
      F1.ops = F2.ops ∧ F1.ops = (tA.ops ++ tB.ops) ++ tC.ops := by
  obtain ⟨hAn, LA, rA, hAl, hAim, hApv, hAfr, hArp, -⟩ := hwf A none tA hA
  subst hAn
  obtain ⟨hBn, LB, rB, hBl, hBim, hBpv, hBfr, hBrp, hBhint⟩ := hwf B _ tB hB
  obtain ⟨hCn, LC, rC, hCl, hCim, hCpv, hCfr, hCrp, -⟩ := hwf C _ tC hC
  have hform : ∀ (t : Fragment) (L : TLayout) (r : List Nat), t.numQubits = tA.numQubits →
      t.layout = some L → L.inputQubitMapping = List.range tA.numQubits →
      PermOn tA.numQubits L.initialPhysToVirt → L.finalRouting = some r →
      PermOn tA.numQubits r →
      get_full_map t.numQubits t.layout
        = some ((List.range tA.numQubits).map
            (fun v => r.getD (List.indexOf v L.initialPhysToVirt) 0)) := by
    intro t L r htn htl him hpv hfr hrp
    rw [htl, htn]
    have h := get_full_map_formula tA.numQubits L him hpv (by rw [hfr]; exact hrp)
    rw [hfr] at h
    exact h
  have hfmAval : fmA
      = (List.range tA.numQubits).map
          (fun v => rA.getD (List.indexOf v LA.initialPhysToVirt) 0) :=
    Option.some_inj.mp (hfmA.symm.trans (hform tA LA rA rfl hAl hAim hApv hAfr hArp))
  have hfmBval : fmB
      = (List.range tA.numQubits).map
          (fun v => rB.getD (List.indexOf v LB.initialPhysToVirt) 0) :=
    Option.some_inj.mp (hfmB.symm.trans (hform tB LB rB hBn hBl hBim hBpv hBfr hBrp))
  have hfmAlen : fmA.length = tA.numQubits := by rw [hfmAval]; simp
  have hfmBlen : fmB.length = tA.numQubits := by rw [hfmBval]; simp
  have hAB : ¬tA.numQubits < tB.numQubits := by
    rw [hBn]
    exact Nat.lt_irrefl _
  have hAC : ¬tA.numQubits < tC.numQubits := by
    rw [hCn]
    exact Nat.lt_irrefl _
  obtain ⟨fmC, hfmC⟩ : ∃ fmC, get_full_map tC.numQubits tC.layout = some fmC :=
    ⟨_, hform tC LC rC hCn hCl hCim hCpv hCfr hCrp⟩
  have hstep1 := chainStep_first c A tA fmA hA hfmA
  have hstep2 := chainStep_ok c B tB tA tA fmA fmB hB hfmB hAB
  have hstep3 := chainStep_ok c C tC ⟨tA.numQubits, tA.ops ++ tB.ops, tA.layout⟩ tB fmB fmC
    hC hfmC hAC
  have hchain : transpile_chain [A, B, C] c
      = .ok ⟨tA.numQubits, (tA.ops ++ tB.ops) ++ tC.ops, tC.layout⟩ := by
    rw [transpile_chain_three c A B C _ _ _ hstep1 hstep2 hstep3]
  have hcrA : routingOf tA.numQubits LA = rA := by
    rw [routingOf_eq_routeListOf (by rw [hAfr]; exact hArp), hAfr]
    rfl
  have hcrB : routingOf tB.numQubits LB = rB := by
    rw [hBn, routingOf_eq_routeListOf (by rw [hBfr]; exact hBrp), hBfr]
    rfl
  have hfrABperm : PermOn tA.numQubits ((routingOf tA.numQubits LA).map
      (fun q => (routingOf tB.numQubits LB).getD q 0)) := by
    rw [hcrA, hcrB]
    exact permOn_map_comp hArp hBrp
  have hm1 := transpile_right_ok tA B tB c LA LB fmA hAl hfmA hB hBl (by rw [hBn])
  have hm1fm : get_full_map tA.numQubits
      (some ⟨LA.inputQubitMapping, LA.initialPhysToVirt,
        some ((routingOf tA.numQubits LA).map
          (fun q => (routingOf tB.numQubits LB).getD q 0))⟩)
      = some ((List.range tA.numQubits).map
          (fun v => ((routingOf tA.numQubits LA).map
            (fun q => (routingOf tB.numQubits LB).getD q 0)).getD
              (List.indexOf v LA.initialPhysToVirt) 0)) := by
    exact get_full_map_formula tA.numQubits
      ⟨LA.inputQubitMapping, LA.initialPhysToVirt,
        some ((routingOf tA.numQubits LA).map
          (fun q => (routingOf tB.numQubits LB).getD q 0))⟩
      hAim hApv hfrABperm
  have hpref : (((List.range tA.numQubits).map
      (fun v => ((routingOf tA.numQubits LA).map
        (fun q => (routingOf tB.numQubits LB).getD q 0)).getD
          (List.indexOf v LA.initialPhysToVirt) 0)).take C.numQubits)
      = fmB.take C.numQubits := by
    apply List.ext_getElem
    · rw [List.length_take, List.length_take, List.length_map, List.length_range, hfmBlen]
    · intro i h1 h2
      rw [List.length_take, List.length_map, List.length_range] at h1
      have hiC : i < C.numQubits := Nat.lt_of_lt_of_le h1 (Nat.min_le_left _ _)
      have hiD : i < tA.numQubits := Nat.lt_of_lt_of_le h1 (Nat.min_le_right _ _)
      rw [List.getElem_take, List.getElem_take, List.getElem_map, List.getElem_range]
      have hidxA : List.indexOf i LA.initialPhysToVirt < tA.numQubits :=
        permOn_indexOf_lt hApv hiD
      have hL : ((routingOf tA.numQubits LA).map
          (fun q => (routingOf tB.numQubits LB).getD q 0)).getD
            (List.indexOf i LA.initialPhysToVirt) 0
          = rB.getD (rA.getD (List.indexOf i LA.initialPhysToVirt) 0) 0 := by
        rw [getD_map_lt _ (by rw [routingOf_length]; exact hidxA) 0 0, hcrA, hcrB]
      have hplace : List.indexOf i LB.initialPhysToVirt
          = (fmA.take B.numQubits).getD i 0 := by
        have htlen : (fmA.take B.numQubits).length = B.numQubits := by
          rw [List.length_take, hfmAlen]
          exact Nat.min_eq_left hBD
        exact hBhint (fmA.take B.numQubits) rfl i
          (by rw [htlen]; exact Nat.lt_of_lt_of_le hiC hCB)
          hiD
      have htake : (fmA.take B.numQubits).getD i 0 = fmA.getD i 0 :=
        getD_take_lt (Nat.lt_of_lt_of_le hiC hCB) (by rw [hfmAlen]; exact hiD) 0
      have hfmAi : fmA.getD i 0 = rA.getD (List.indexOf i LA.initialPhysToVirt) 0 := by
        rw [hfmAval]
        exact getD_map_range _ hiD 0
      have hR : fmB[i] = rB.getD (List.indexOf i LB.initialPhysToVirt) 0 := by
        have hfb : fmB.getD i 0 = rB.getD (List.indexOf i LB.initialPhysToVirt) 0 := by
          rw [hfmBval]
          exact getD_map_range _ hiD 0
        rw [← hfb]
        exact (List.getD_eq_getElem fmB 0 (by rw [hfmBlen]; exact hiD)).symm
      rw [hL, hR, hplace, htake, hfmAi]
  have hC2 : c C (some ((((List.range tA.numQubits).map
      (fun v => ((routingOf tA.numQubits LA).map
        (fun q => (routingOf tB.numQubits LB).getD q 0)).getD
          (List.indexOf v LA.initialPhysToVirt) 0)).take C.numQubits))) = .ok tC := by
    rw [hpref]
    exact hC
  have hm2 := transpile_right_ok
    ⟨tA.numQubits, tA.ops ++ tB.ops,
      some ⟨LA.inputQubitMapping, LA.initialPhysToVirt,
        some ((routingOf tA.numQubits LA).map
          (fun q => (routingOf tB.numQubits LB).getD q 0))⟩⟩
    C tC c
    ⟨LA.inputQubitMapping, LA.initialPhysToVirt,
      some ((routingOf tA.numQubits LA).map
        (fun q => (routingOf tB.numQubits LB).getD q 0))⟩
    LC
    ((List.range tA.numQubits).map
      (fun v => ((routingOf tA.numQubits LA).map
        (fun q => (routingOf tB.numQubits LB).getD q 0)).getD
          (List.indexOf v LA.initialPhysToVirt) 0))
    rfl hm1fm hC2 hCl (by rw [hCn])
  have hnested : transpile_right_twice tA B C c
      = .ok ⟨tA.numQubits, (tA.ops ++ tB.ops) ++ tC.ops,
          some ⟨LA.inputQubitMapping, LA.initialPhysToVirt,
            some ((routingOf tA.numQubits
                ⟨LA.inputQubitMapping, LA.initialPhysToVirt,
                  some ((routingOf tA.numQubits LA).map
                    (fun q => (routingOf tB.numQubits LB).getD q 0))⟩).map
              (fun q => (routingOf tC.numQubits LC).getD q 0))⟩⟩ := by
    unfold transpile_right_twice
    rw [hm1]
    exact hm2
  exact ⟨_, _, hchain, hnested, rfl, rfl⟩

/-- C4 witness: a non-increasing-width chain (three, two, one qubits)
under the table compiler where both orders produce the same operation
sequence. -/
theorem chain_matches_nested_right_witness :
    ∃ F1 F2, transpile_chain [frA, frC, frB] cexCompiler = .ok F1 ∧
      transpile_right_twice tA frC frB cexCompiler = .ok F2 ∧
      F1.ops = F2.ops ∧ F1.ops = (tA.ops ++ tC2.ops) ++ tB.ops := by
  exact chain_matches_nested_right cexCompiler 3 frA frC frB tA tC2 tB [1, 2, 0] [1, 2, 0]
    cexCompiler_wf rfl (by decide) (by rfl) (by decide) (by rfl) (by decide) (by decide)
